import Mathlib

/-! The growable queue of `sat/src/queue.h`

A shallow embedding of the class template `queue<T, default_capacity>` and
proofs of its contract.

Modelling conventions

* `int` members (`head`, `tail`, `capacity`) are integers (`Int`) and `int` is
  32 bits wide.  The one `int` operation that can leave the range is the
  product `2 * capacity` of `expand`; it is checked against `INT_MAX`, and an
  overflow, after which the program does not go on, is reported as
  `Fault.overflow`.  The increments `tail++` and `head++` are made below
  `capacity` and below `tail`, which are `int` values, so they stay in range.
  `unsigned int` arguments and results are natural numbers.  Failure of the
  allocator for lack of memory is outside the model.
* The buffer `T * array` is the list of the slots of the current allocation
  (the empty list for `NULL`).  An access outside the allocation is undefined
  behaviour in C++ and is reported as `Fault.out_of_bounds`.
* A failing `assert` halts the program and is reported as
  `Fault.assertion_failed`.
* `memset(_, 0, _)` fills slots with the all-zero value of `T`, which is
  `default` of the `Inhabited T` instance.
* `new T[n]` in the constructor leaves the slots unspecified; the constructor
  of the model receives their contents as the argument `fresh`.
-/

/-- The ways an operation can stop the program instead of returning. -/
inductive Fault where
  | assertion_failed
  | out_of_bounds
  | overflow
deriving DecidableEq, Repr

/-- The largest value of a 32-bit `int`. -/
def INT_MAX : Int := 2147483647

/-- The smallest value of a 32-bit `int`. -/
def INT_MIN : Int := -2147483648

/-- The product of two `int` values: outside the range of `int` the signed
arithmetic overflows. -/
def int_mul (a b : Int) : Except Fault Int :=
  if INT_MIN ≤ a * b ∧ a * b ≤ INT_MAX then .ok (a * b)
  else .error Fault.overflow

deriving instance DecidableEq for Except

/-- Reading `array[i]`: outside the allocation the read is undefined. -/
def array_read {T : Type} (a : List T) (i : Int) : Except Fault T :=
  if 0 ≤ i then
    match a[i.toNat]? with
    | some x => .ok x
    | none => .error Fault.out_of_bounds
  else .error Fault.out_of_bounds

/-- Writing `array[i] = v`: outside the allocation the write is undefined. -/
def array_write {T : Type} (a : List T) (i : Int) (v : T) : Except Fault (List T) :=
  if 0 ≤ i ∧ i.toNat < a.length then .ok (a.set i.toNat v)
  else .error Fault.out_of_bounds

/-- The effect of `memcpy(dst, src, n * sizeof(T))`: the first `n` slots of
`dst` receive the first `n` slots of `src`; both must have `n` slots. -/
def memcpy {T : Type} (dst src : List T) (n : Nat) : Except Fault (List T) :=
  if n ≤ src.length ∧ n ≤ dst.length then .ok (src.take n ++ dst.drop n)
  else .error Fault.out_of_bounds

/-- The data members of `queue<T, default_capacity>`. -/
structure queue (T : Type) (default_capacity : Int) where
  array : List T
  head : Int
  tail : Int
  capacity : Int
deriving DecidableEq, Repr

namespace queue

variable {T : Type} {default_capacity : Int}

/-- `void expand()`: allocate `default_capacity` slots (when the capacity is
zero) or twice the capacity, zero them, copy the old slots over.  The product
`2 * capacity` is an `int` product. -/
def expand [Inhabited T] (q : queue T default_capacity) :
    Except Fault (queue T default_capacity) :=
  match (if q.capacity = 0 then .ok default_capacity
      else int_mul 2 q.capacity) with
  | .error e => .error e
  | .ok new_capacity =>
    let new_array : List T := List.replicate new_capacity.toNat default
    if q.capacity > 0 then
      match memcpy new_array q.array q.capacity.toNat with
      | .ok copied => .ok { q with array := copied, capacity := new_capacity }
      | .error e => .error e
    else
      .ok { q with array := new_array, capacity := new_capacity }

/-- `void reset() { head = 0; tail = 0; }` -/
def reset (q : queue T default_capacity) : queue T default_capacity :=
  { q with head := 0, tail := 0 }

/-- The constructor `queue(int initial_capacity = 0)`.  `fresh i` is the
unspecified content of slot `i` of the buffer returned by `new T[...]`. -/
def construct (initial_capacity : Int) (fresh : Nat → T) :
    queue T default_capacity :=
  let q : queue T default_capacity :=
    if initial_capacity = 0 then
      { array := [], head := 0, tail := 0, capacity := 0 }
    else
      { array := (List.range initial_capacity.toNat).map fresh,
        head := 0, tail := 0, capacity := initial_capacity }
  q.reset

/-- `bool is_empty()` -/
def is_empty (q : queue T default_capacity) : Except Fault Bool :=
  if q.head ≤ q.tail then .ok (decide (q.head = q.tail))
  else .error Fault.assertion_failed

/-- `void push(T v)` -/
def push [Inhabited T] (q : queue T default_capacity) (v : T) :
    Except Fault (queue T default_capacity) :=
  if q.head ≤ q.tail then
    match (if q.tail ≥ q.capacity then q.expand else .ok q) with
    | .ok q1 =>
      match array_write q1.array q1.tail v with
      | .ok a => .ok { q1 with array := a, tail := q1.tail + 1 }
      | .error e => .error e
    | .error e => .error e
  else .error Fault.assertion_failed

/-- The loop of `contains`: `n` is the number of iterations left, `i` the
loop variable. -/
def contains_loop [DecidableEq T] (a : List T) (v : T) :
    Int → Nat → Except Fault Bool
  | _, 0 => .ok false
  | i, n + 1 =>
    match array_read a i with
    | .ok x => if x = v then .ok true else contains_loop a v (i + 1) n
    | .error e => .error e

/-- `bool contains(T v) const`: the loop `for (i = head; i < tail; i++)`
runs `tail - head` times when `head < tail` and not at all otherwise. -/
def contains [DecidableEq T] (q : queue T default_capacity) (v : T) :
    Except Fault Bool :=
  contains_loop q.array v q.head (q.tail - q.head).toNat

/-- `T pop()`: the value and the state after the call. -/
def pop (q : queue T default_capacity) :
    Except Fault (T × queue T default_capacity) :=
  if q.head < q.tail then
    match array_read q.array q.head with
    | .ok x => .ok (x, { q with head := q.head + 1 })
    | .error e => .error e
  else .error Fault.assertion_failed

/-- `unsigned int get_size() const` -/
def get_size (q : queue T default_capacity) : Except Fault Nat :=
  if q.head ≤ q.tail then .ok (q.tail - q.head).toNat
  else .error Fault.assertion_failed

/-- `T get(unsigned int idx) const` -/
def get (q : queue T default_capacity) (idx : Nat) : Except Fault T :=
  match q.get_size with
  | .ok s =>
    if idx < s then array_read q.array ((idx : Int) + q.head)
    else .error Fault.assertion_failed
  | .error e => .error e

/-- `void set(unsigned int idx, T v)` -/
def set (q : queue T default_capacity) (idx : Nat) (v : T) :
    Except Fault (queue T default_capacity) :=
  match q.get_size with
  | .ok s =>
    if idx < s then
      match array_write q.array ((idx : Int) + q.head) v with
      | .ok a => .ok { q with array := a }
      | .error e => .error e
    else .error Fault.assertion_failed
  | .error e => .error e

/-- `unsigned int get_num_elems_inserted() const { return tail; }` -/
def get_num_elems_inserted (q : queue T default_capacity) : Nat :=
  q.tail.toNat

/-- `T low_level_get(unsigned int idx) const { return array[idx]; }` -/
def low_level_get (q : queue T default_capacity) (idx : Nat) : Except Fault T :=
  array_read q.array (idx : Int)

end queue

/-- The states a program can hold: those produced by the constructor with a
non-negative initial capacity and by calls of `push`, `pop`, `set` and `reset`
that return. -/
inductive Reachable {T : Type} [Inhabited T] {d : Int} : queue T d → Prop where
  | construct (initial_capacity : Int) (fresh : Nat → T)
      (h : 0 ≤ initial_capacity) :
      Reachable (queue.construct initial_capacity fresh)
  | push (q q1 : queue T d) (v : T) :
      Reachable q → q.push v = .ok q1 → Reachable q1
  | pop (q q1 : queue T d) (x : T) :
      Reachable q → q.pop = .ok (x, q1) → Reachable q1
  | set (q q1 : queue T d) (idx : Nat) (v : T) :
      Reachable q → q.set idx v = .ok q1 → Reachable q1
  | reset (q : queue T d) : Reachable q → Reachable q.reset

/-- A call issued by a client of the queue. -/
inductive Op (T : Type) where
  | push (v : T)
  | pop
deriving DecidableEq, Repr

/-- The values pushed by a sequence of calls, in order. -/
def pushed {T : Type} : List (Op T) → List T
  | [] => []
  | Op.push v :: rest => v :: pushed rest
  | Op.pop :: rest => pushed rest

/-- The number of `pop` calls in a sequence of calls. -/
def pops {T : Type} : List (Op T) → Nat
  | [] => 0
  | Op.push _ :: rest => pops rest
  | Op.pop :: rest => pops rest + 1

/-- Running a sequence of calls: the values returned by the pops, in order,
and the final state. -/
def run {T : Type} [Inhabited T] {d : Int} (q : queue T d) :
    List (Op T) → Except Fault (List T × queue T d)
  | [] => .ok ([], q)
  | Op.push v :: rest =>
    match q.push v with
    | .ok q1 => run q1 rest
    | .error e => .error e
  | Op.pop :: rest =>
    match q.pop with
    | .ok (x, q1) =>
      match run q1 rest with
      | .ok (xs, q2) => .ok (x :: xs, q2)
      | .error e => .error e
    | .error e => .error e

/-- The client's side of the contract of `pop`: every `pop` of the sequence is
issued in a state where `get_size()` returns a positive number.  Calls after a
halted operation are never issued and so are not constrained. -/
def guarded {T : Type} [Inhabited T] {d : Int} (q : queue T d) :
    List (Op T) → Bool
  | [] => true
  | Op.push v :: rest =>
    match q.push v with
    | .ok q1 => guarded q1 rest
    | .error _ => true
  | Op.pop :: rest =>
    (match q.get_size with
      | .ok s => decide (0 < s)
      | .error _ => false) &&
    (match q.pop with
      | .ok (_, q1) => guarded q1 rest
      | .error _ => true)

/-- Pushing the values of a list in order, with no other call in between. -/
def push_all {T : Type} [Inhabited T] {d : Int} (q : queue T d) :
    List T → Except Fault (queue T d)
  | [] => .ok q
  | v :: vs =>
    match q.push v with
    | .ok q1 => push_all q1 vs
    | .error e => .error e

/-- A call of one of the four members that change the queue. -/
inductive Call (T : Type) where
  | push (v : T)
  | pop
  | set (idx : Nat) (v : T)
  | reset
deriving DecidableEq, Repr

/-- Running a sequence of calls of `push`, `pop`, `set` and `reset`: the final
state, or the fault of the first call that halts. -/
def exec {T : Type} [Inhabited T] {d : Int} (q : queue T d) :
    List (Call T) → Except Fault (queue T d)
  | [] => .ok q
  | Call.push v :: rest =>
    match q.push v with
    | .ok q1 => exec q1 rest
    | .error e => .error e
  | Call.pop :: rest =>
    match q.pop with
    | .ok (_, q1) => exec q1 rest
    | .error e => .error e
  | Call.set idx v :: rest =>
    match q.set idx v with
    | .ok q1 => exec q1 rest
    | .error e => .error e
  | Call.reset :: rest => exec q.reset rest

/-- The client's side of the contracts: every `pop` of the sequence is issued
with `get_size() > 0` and every `set(idx, _)` with `idx < get_size()`.  Calls
after a halted operation are never issued and so are not constrained. -/
def respects {T : Type} [Inhabited T] {d : Int} (q : queue T d) :
    List (Call T) → Bool
  | [] => true
  | Call.push v :: rest =>
    match q.push v with
    | .ok q1 => respects q1 rest
    | .error _ => true
  | Call.pop :: rest =>
    (match q.get_size with
      | .ok s => decide (0 < s)
      | .error _ => false) &&
    (match q.pop with
      | .ok (_, q1) => respects q1 rest
      | .error _ => true)
  | Call.set idx v :: rest =>
    (match q.get_size with
      | .ok s => decide (idx < s)
      | .error _ => false) &&
    (match q.set idx v with
      | .ok q1 => respects q1 rest
      | .error _ => true)
  | Call.reset :: rest => respects q.reset rest

/-- The number of `push` calls in a sequence of calls. -/
def push_count {T : Type} : List (Call T) → Nat
  | [] => 0
  | Call.push _ :: rest => push_count rest + 1
  | _ :: rest => push_count rest

/-- Counting pushes from `n`, starting again from zero at every `reset`. -/
def count_from {T : Type} (n : Nat) : List (Call T) → Nat
  | [] => n
  | Call.push _ :: rest => count_from (n + 1) rest
  | Call.pop :: rest => count_from n rest
  | Call.set _ _ :: rest => count_from n rest
  | Call.reset :: rest => count_from 0 rest

/-- The number of `push` calls after the last `reset` of a sequence of calls
(of all its `push` calls when it has no `reset`). -/
def pushes_since_reset {T : Type} (calls : List (Call T)) : Nat :=
  count_from 0 calls

/-! ## The theory-context adapter of `sat/src/ics_interface.h`

The containers `hash_set`, `hash_map` and `vector` belong to the C++ library.
A `hash_map` is modelled by the finite map it holds, a `hash_set` by a finite
set, a `vector` by a list.  The external solver is reached through free
functions; its state is a value of a type `Solver`, and each free function is
an argument of the member that calls it. -/

/-- `hash_map<K, V>`: `m k` is the value stored under the key `k`, and `none`
when the map has no entry for `k`. -/
def hash_map (K V : Type) : Type := K → Option V

namespace hash_map

variable {K V : Type}

/-- The map with no entry. -/
def empty : hash_map K V := fun _ => none

/-- The map with the entry of `k` set to `v`, inserted or overwritten. -/
def store [DecidableEq K] (m : hash_map K V) (k : K) (v : V) : hash_map K V :=
  fun j => if j = k then some v else m j

/-- `m[k]`, the library's `operator[]`: the value stored under `k`; when `k`
has no entry, an entry with the default-constructed value `V()` is inserted
first.  The result is the value and the map after the call. -/
def subscript [DecidableEq K] [Inhabited V] (m : hash_map K V) (k : K) :
    V × hash_map K V :=
  match m k with
  | some v => (v, m)
  | none => (default, m.store k default)

end hash_map

/-- `typedef hash_set<unsigned int> FormulaIdSet;` -/
abbrev FormulaIdSet : Type := Finset Nat

/-- `typedef hash_map<unsigned int, vector<unsigned int> > FormulaIdMapping;` -/
abbrev FormulaIdMapping : Type := hash_map Nat (List Nat)

/-- `typedef hash_map<int, int> ICSAtomToFormulaId;` -/
abbrev ICSAtomToFormulaId : Type := hash_map Int Int

/-- Modelled from the spec: the type `LPFormulaId` is declared in
`LPFormula.h`, which is not among the sources; the spec describes a formula
identifier as an opaque integer. -/
abbrev LPFormulaId : Type := Int

/-- The data members of `class ICSInterface`.  `Manager` stands for what
`formula_manager` points to and `Time` for the `double` of `ics_elapsed`;
neither is computed with here. -/
structure ICSInterface (Manager Time : Type) where
  formula_manager : Manager
  ics_elapsed : Time
  num_calls : Nat
  use_ics_explanations : Bool
  formulas : FormulaIdSet
  associated_formulas : FormulaIdMapping
  atom_to_formula_id : ICSAtomToFormulaId

/-- Modelled from the spec: the state around the adapter that the spec speaks
of and the class does not hold: the scope depth `d` (the "implicit" scope
stack of the spec) and the context of the external solver. -/
structure AdapterContext (Manager Time Solver : Type) where
  d : Nat
  adapter : ICSInterface Manager Time
  solver : Solver

namespace ICSInterface

variable {Manager Time Solver : Type}

/-- `void reset_scratch_state() { icsat_reset_scratch_context(); }`: the
adapter and the solver state after the call. -/
def reset_scratch_state (icsat_reset_scratch_context : Solver → Solver)
    (a : ICSInterface Manager Time) (s : Solver) :
    ICSInterface Manager Time × Solver :=
  (a, icsat_reset_scratch_context s)

/-- `double get_time() const { return ics_elapsed; }` -/
def get_time (a : ICSInterface Manager Time) : Time := a.ics_elapsed

/-- `unsigned int get_num_calls() const { return num_calls; }` -/
def get_num_calls (a : ICSInterface Manager Time) : Nat := a.num_calls

/-- `get_associated_formulas(f_idx) { return associated_formulas[f_idx]; }`:
the vector referred to and the adapter after the call. -/
def get_associated_formulas (a : ICSInterface Manager Time) (f_idx : Nat) :
    List Nat × ICSInterface Manager Time :=
  let r := a.associated_formulas.subscript f_idx
  (r.1, { a with associated_formulas := r.2 })

/-- `assert_formula_in_scratch_state(f) { return assert_formula(f, true); }`.
The member `assert_formula` is declared in the header and defined elsewhere;
it is the argument `assert_formula` here. -/
def assert_formula_in_scratch_state
    (assert_formula : ICSInterface Manager Time → Solver → LPFormulaId → Bool →
      Bool × ICSInterface Manager Time × Solver)
    (a : ICSInterface Manager Time) (s : Solver) (f : LPFormulaId) :
    Bool × ICSInterface Manager Time × Solver :=
  assert_formula a s f true

/-- `bool use_ics_explain() { return use_ics_explanations; }` -/
def use_ics_explain (a : ICSInterface Manager Time) : Bool :=
  a.use_ics_explanations

/-- `get_formula_id_of_atom_id(atom) { return atom_to_formula_id[atom]; }`:
the formula id and the adapter after the call. -/
def get_formula_id_of_atom_id (a : ICSInterface Manager Time) (atom : Int) :
    LPFormulaId × ICSInterface Manager Time :=
  let r := a.atom_to_formula_id.subscript atom
  (r.1, { a with atom_to_formula_id := r.2 })

/-- Modelled from the spec: `void set_formula(unsigned int f_idx)` is declared
in the header and defined outside the sources.  The spec: it adds `f` to the
FormulaIdSet and records, for each theory atom the Formula Manager reports as
occurring in `f`, the mapping atom → `f`, overwriting any prior formula id
mapped to that atom.  `get_theory_atoms` is the Formula Manager's report. -/
def set_formula (get_theory_atoms : Nat → List Int)
    (a : ICSInterface Manager Time) (f_idx : Nat) : ICSInterface Manager Time :=
  { a with
    formulas := insert f_idx a.formulas
    atom_to_formula_id :=
      (get_theory_atoms f_idx).foldl (fun m atom => m.store atom (f_idx : Int))
        a.atom_to_formula_id }

/-- Modelled from the spec: `void push()` is declared in the header and
defined outside the sources.  The spec: `d += 1`; forwards to the external
theory solver's push; never fails. -/
def push (ctx_push : Solver → Solver) (c : AdapterContext Manager Time Solver) :
    AdapterContext Manager Time Solver :=
  { c with d := c.d + 1, solver := ctx_push c.solver }

/-- Modelled from the spec: `void pop()` is declared in the header and defined
outside the sources.  The spec: precondition `d > 0`, whose violation is a
fatal assertion; `d -= 1`; forwards to the external theory solver's pop. -/
def pop (ctx_pop : Solver → Solver) (c : AdapterContext Manager Time Solver) :
    Except Fault (AdapterContext Manager Time Solver) :=
  if 0 < c.d then .ok { c with d := c.d - 1, solver := ctx_pop c.solver }
  else .error Fault.assertion_failed

end ICSInterface

/-- The shape of a capacity `cap` of a queue constructed with initial capacity
`c0` and default capacity `d`: `c0 * 2^j` when `c0 > 0`; zero or `d * 2^j`
when `c0 == 0`. -/
def capacity_shape (c0 d cap : Int) : Prop :=
  (0 < c0 → ∃ j : Nat, cap = c0 * 2 ^ j) ∧
    (c0 = 0 → cap = 0 ∨ ∃ j : Nat, cap = d * 2 ^ j)

/-- The representation invariant of the queue. -/
def RepInv {T : Type} {d : Int} (q : queue T d) : Prop :=
  0 ≤ q.head ∧ q.head ≤ q.tail ∧ q.tail ≤ q.capacity ∧
    q.array.length = q.capacity.toNat

/-- The slots written so far, `[0, tail)`. -/
def history {T : Type} {d : Int} (q : queue T d) : List T :=
  q.array.take q.tail.toNat

/-- The live window, `[head, tail)`. -/
def live {T : Type} {d : Int} (q : queue T d) : List T :=
  (history q).drop q.head.toNat

/-! ## Buffer accesses -/

theorem read_eq_ok {T : Type} (a : List T) (i : Int) (x : T) :
    array_read a i = .ok x ↔ 0 ≤ i ∧ a[i.toNat]? = some x := by
  unfold array_read
  by_cases h : 0 ≤ i
  · simp only [h, if_true, true_and]
    cases hx : a[i.toNat]? with
    | none => simp
    | some y => simp
  · simp [h]

theorem read_nat {T : Type} (a : List T) (i : Nat) (x : T)
    (h : a[i]? = some x) : array_read a (i : Int) = .ok x := by
  rw [read_eq_ok]
  exact ⟨Int.natCast_nonneg i, by simpa using h⟩

theorem read_inside {T : Type} (a : List T) (i : Int) (h0 : 0 ≤ i)
    (h1 : i.toNat < a.length) : array_read a i = .ok (a.get ⟨i.toNat, h1⟩) := by
  rw [read_eq_ok]
  exact ⟨h0, by simp [List.getElem?_eq_getElem h1]⟩

theorem write_inside {T : Type} (a : List T) (i : Int) (v : T) (h0 : 0 ≤ i)
    (h1 : i.toNat < a.length) : array_write a i v = .ok (a.set i.toNat v) := by
  unfold array_write
  simp [h0, h1]

/-! ## The representation invariant -/

theorem RepInv_construct {T : Type} {d : Int} (c : Int) (fresh : Nat → T)
    (h : 0 ≤ c) : RepInv (queue.construct c fresh : queue T d) := by
  unfold queue.construct queue.reset RepInv
  by_cases hc : c = 0
  · simp [hc]
  · simp [hc, h]

theorem RepInv_reset {T : Type} {d : Int} (q : queue T d) (h : RepInv q) :
    RepInv q.reset := by
  unfold RepInv at *
  unfold queue.reset
  simp only
  omega

theorem int_mul_two {c : Int} (h0 : 0 ≤ c) (hfit : 2 * c ≤ INT_MAX) :
    int_mul 2 c = .ok (2 * c) := by
  unfold int_mul
  rw [if_pos ⟨by unfold INT_MIN; omega, hfit⟩]

theorem int_mul_two_overflow {c : Int} (hover : INT_MAX < 2 * c) :
    int_mul 2 c = .error Fault.overflow := by
  unfold int_mul
  rw [if_neg (by omega)]

/-- Doubling a capacity that does not fit an `int` halts `expand`. -/
theorem expand_overflow {T : Type} [Inhabited T] {d : Int} (q : queue T d)
    (hover : INT_MAX < 2 * q.capacity) : q.expand = .error Fault.overflow := by
  have hc : q.capacity ≠ 0 := by
    intro h
    rw [h] at hover
    unfold INT_MAX at hover
    omega
  unfold queue.expand
  rw [if_neg hc, int_mul_two_overflow hover]

theorem expand_spec {T : Type} [Inhabited T] {d : Int} (q : queue T d)
    (h : RepInv q) (hfit : 2 * q.capacity ≤ INT_MAX) :
    ∃ q1, q.expand = .ok q1 ∧ q1.head = q.head ∧ q1.tail = q.tail ∧
      q1.capacity = (if q.capacity = 0 then d else 2 * q.capacity) ∧
      q1.array = q.array ++
        List.replicate (q1.capacity.toNat - q.capacity.toNat) default := by
  obtain ⟨h0, h1, h2, h3⟩ := h
  by_cases hc : q.capacity = 0
  · have hnil : q.array = [] := by
      apply List.eq_nil_of_length_eq_zero
      rw [h3, hc]; rfl
    refine ⟨⟨List.replicate d.toNat default, q.head, q.tail, d⟩, ?_, ?_⟩
    · unfold queue.expand
      simp [hc]
    · simp [hc, hnil]
  · have hpos : 0 < q.capacity := by omega
    have hlen : q.capacity.toNat ≤ (2 * q.capacity).toNat := by omega
    refine ⟨⟨q.array ++ List.replicate
        ((2 * q.capacity).toNat - q.capacity.toNat) default, q.head, q.tail,
        2 * q.capacity⟩, ?_, ?_⟩
    · unfold queue.expand
      rw [if_neg hc, int_mul_two (by omega) hfit]
      unfold memcpy
      simp only [gt_iff_lt, hpos, if_true, List.length_replicate]
      rw [if_pos ⟨by omega, hlen⟩]
      simp only [List.drop_replicate]
      rw [← h3, List.take_length]
    · simp [hc]

theorem write_eq_ok {T : Type} (a b : List T) (i : Int) (v : T) :
    array_write a i v = .ok b ↔
      0 ≤ i ∧ i.toNat < a.length ∧ b = a.set i.toNat v := by
  unfold array_write
  by_cases h : 0 ≤ i ∧ i.toNat < a.length
  · rw [if_pos h]
    constructor
    · intro e
      injection e with e
      exact ⟨h.1, h.2, e.symm⟩
    · rintro ⟨_, _, e⟩
      rw [e]
  · rw [if_neg h]
    constructor
    · intro e
      cases e
    · rintro ⟨h0, h1, _⟩
      exact absurd ⟨h0, h1⟩ h

/-- What a returning `push` has done. -/
theorem push_frame {T : Type} [Inhabited T] {d : Int} (q q1 : queue T d)
    (v : T) (h : RepInv q) (hp : q.push v = .ok q1) :
    RepInv q1 ∧ q1.head = q.head ∧ q1.tail = q.tail + 1 ∧
      q1.capacity = (if q.tail = q.capacity then
        (if q.capacity = 0 then d else 2 * q.capacity) else q.capacity) ∧
      q1.array[q.tail.toNat]? = some v ∧
      ∀ i x, i ≠ q.tail.toNat → q.array[i]? = some x → q1.array[i]? = some x := by
  have hinv := h
  obtain ⟨h0, h1, h2, h3⟩ := h
  unfold queue.push at hp
  rw [if_pos h1] at hp
  by_cases hfull : q.tail ≥ q.capacity
  · have hfit : 2 * q.capacity ≤ INT_MAX := by
      by_contra hover
      rw [if_pos hfull, expand_overflow q (by omega)] at hp
      cases hp
    obtain ⟨q2, he, eh, et, ec, ea⟩ := expand_spec q hinv hfit
    rw [if_pos hfull, he] at hp
    simp only at hp
    cases hw : array_write q2.array q2.tail v with
    | error e => rw [hw] at hp; cases hp
    | ok a =>
      rw [hw] at hp
      injection hp with hp
      subst hp
      obtain ⟨w0, w1, wa⟩ := (write_eq_ok _ _ _ _).mp hw
      have htc : q.tail = q.capacity := by omega
      have hlen : q2.array.length = q2.capacity.toNat := by
        rw [ea, List.length_append, List.length_replicate, h3, ec]
        split <;> omega
      rw [et] at w1 wa
      refine ⟨?_, eh, ?_, ?_, ?_, ?_⟩
      · unfold RepInv
        simp only [wa, List.length_set]
        omega
      · simp only [et]
      · simp only [ec, htc, if_true]
      · simp [wa, w1]
      · intro i x hi hx
        simp only [wa]
        rw [List.getElem?_set_ne (Ne.symm hi), ea]
        rw [List.getElem?_append_left (List.getElem?_eq_some.mp hx).1]
        exact hx
  · rw [if_neg hfull] at hp
    simp only at hp
    cases hw : array_write q.array q.tail v with
    | error e => rw [hw] at hp; cases hp
    | ok a =>
      rw [hw] at hp
      injection hp with hp
      subst hp
      obtain ⟨w0, w1, wa⟩ := (write_eq_ok _ _ _ _).mp hw
      refine ⟨?_, rfl, rfl, ?_, ?_, ?_⟩
      · unfold RepInv
        simp only [wa, List.length_set]
        omega
      · simp only
        rw [if_neg (by omega)]
      · simp [wa, w1]
      · intro i x hi hx
        simp only [wa]
        rw [List.getElem?_set_ne (Ne.symm hi)]
        exact hx

/-- With room left, or with a positive default capacity and a capacity whose
double fits an `int`, `push` returns. -/
theorem push_ok {T : Type} [Inhabited T] {d : Int} (q : queue T d) (v : T)
    (h : RepInv q)
    (hd : q.tail < q.capacity ∨ (0 < d ∧ 2 * q.capacity ≤ INT_MAX)) :
    ∃ q1, q.push v = .ok q1 := by
  have hinv := h
  obtain ⟨h0, h1, h2, h3⟩ := h
  unfold queue.push
  rw [if_pos h1]
  by_cases hfull : q.tail ≥ q.capacity
  · obtain ⟨hd, hfit⟩ : 0 < d ∧ 2 * q.capacity ≤ INT_MAX := by
      rcases hd with hd | hd
      · omega
      · exact hd
    obtain ⟨q2, he, eh, et, ec, ea⟩ := expand_spec q hinv hfit
    have hcap : q.tail < q2.capacity := by
      rw [ec]; split <;> omega
    have hin : q2.tail.toNat < q2.array.length := by
      rw [ea, List.length_append, List.length_replicate, h3, et]; omega
    rw [if_pos hfull, he]
    simp only
    rw [write_inside q2.array q2.tail v (by omega) hin]
    exact ⟨_, rfl⟩
  · rw [if_neg hfull]
    simp only
    rw [write_inside q.array q.tail v (by omega) (by omega)]
    exact ⟨_, rfl⟩

theorem push_spec {T : Type} [Inhabited T] {d : Int} (q : queue T d) (v : T)
    (h : RepInv q)
    (hd : q.tail < q.capacity ∨ (0 < d ∧ 2 * q.capacity ≤ INT_MAX)) :
    ∃ q1, q.push v = .ok q1 ∧ RepInv q1 ∧ q1.head = q.head ∧
      q1.tail = q.tail + 1 ∧
      q1.capacity = (if q.tail = q.capacity then
        (if q.capacity = 0 then d else 2 * q.capacity) else q.capacity) ∧
      q1.array[q.tail.toNat]? = some v ∧
      ∀ i x, i ≠ q.tail.toNat → q.array[i]? = some x → q1.array[i]? = some x := by
  obtain ⟨q1, hp⟩ := push_ok q v h hd
  exact ⟨q1, hp, push_frame q q1 v h hp⟩

/-- What a returning `pop` has done. -/
theorem pop_frame {T : Type} {d : Int} (q q1 : queue T d) (x : T)
    (hp : q.pop = .ok (x, q1)) :
    q.head < q.tail ∧ array_read q.array q.head = .ok x ∧
      q1 = ⟨q.array, q.head + 1, q.tail, q.capacity⟩ := by
  unfold queue.pop at hp
  by_cases hlt : q.head < q.tail
  · rw [if_pos hlt] at hp
    cases hr : array_read q.array q.head with
    | error e => rw [hr] at hp; cases hp
    | ok y =>
      rw [hr] at hp
      injection hp with hp
      injection hp with hx hq
      subst hx
      exact ⟨hlt, rfl, hq.symm⟩
  · rw [if_neg hlt] at hp
    cases hp

/-- On a non-empty queue `pop` returns the slot at `head`. -/
theorem pop_ok {T : Type} {d : Int} (q : queue T d) (h : RepInv q)
    (hlt : q.head < q.tail) :
    ∃ x, q.array[q.head.toNat]? = some x ∧
      q.pop = .ok (x, ⟨q.array, q.head + 1, q.tail, q.capacity⟩) := by
  obtain ⟨h0, h1, h2, h3⟩ := h
  have hin : q.head.toNat < q.array.length := by omega
  refine ⟨q.array.get ⟨q.head.toNat, hin⟩, ?_, ?_⟩
  · simp [List.getElem?_eq_getElem hin]
  · unfold queue.pop
    rw [if_pos hlt, read_inside q.array q.head h0 hin]

/-- What a returning `set` has done. -/
theorem set_frame {T : Type} {d : Int} (q q1 : queue T d) (idx : Nat) (v : T)
    (hs : q.set idx v = .ok q1) :
    q.head ≤ q.tail ∧ idx < (q.tail - q.head).toNat ∧
      ((idx : Int) + q.head).toNat < q.array.length ∧ 0 ≤ (idx : Int) + q.head ∧
      q1 = ⟨q.array.set ((idx : Int) + q.head).toNat v, q.head, q.tail,
        q.capacity⟩ := by
  unfold queue.set queue.get_size at hs
  by_cases hle : q.head ≤ q.tail
  · rw [if_pos hle] at hs
    simp only at hs
    by_cases hi : idx < (q.tail - q.head).toNat
    · rw [if_pos hi] at hs
      cases hw : array_write q.array ((idx : Int) + q.head) v with
      | error e => rw [hw] at hs; cases hs
      | ok a =>
        rw [hw] at hs
        injection hs with hs
        obtain ⟨w0, w1, wa⟩ := (write_eq_ok _ _ _ _).mp hw
        subst wa
        exact ⟨hle, hi, w1, w0, hs.symm⟩
    · rw [if_neg hi] at hs
      cases hs
  · rw [if_neg hle] at hs
    cases hs

/-- Within the live window `set` returns. -/
theorem set_ok {T : Type} {d : Int} (q : queue T d) (idx : Nat) (v : T)
    (h : RepInv q) (hi : idx < (q.tail - q.head).toNat) :
    q.set idx v = .ok ⟨q.array.set ((idx : Int) + q.head).toNat v, q.head,
      q.tail, q.capacity⟩ := by
  obtain ⟨h0, h1, h2, h3⟩ := h
  unfold queue.set queue.get_size
  rw [if_pos h1]
  simp only
  rw [if_pos hi, write_inside q.array _ v (by omega) (by omega)]

/-- Every reachable state satisfies the representation invariant. -/
theorem Reachable.inv {T : Type} [Inhabited T] {d : Int} {q : queue T d}
    (h : Reachable q) : RepInv q := by
  induction h with
  | construct c fresh hc => exact RepInv_construct c fresh hc
  | push q q1 v _ hp ih => exact (push_frame q q1 v ih hp).1
  | pop q q1 x _ hp ih =>
    obtain ⟨hlt, _, hq⟩ := pop_frame q q1 x hp
    obtain ⟨h0, h1, h2, h3⟩ := ih
    subst hq
    unfold RepInv
    simp only
    omega
  | set q q1 idx v _ hs ih =>
    obtain ⟨_, _, _, _, hq⟩ := set_frame q q1 idx v hs
    obtain ⟨h0, h1, h2, h3⟩ := ih
    subst hq
    unfold RepInv
    simp only [List.length_set]
    omega
  | reset q _ ih => exact RepInv_reset q ih

/-! ## The written slots and the live window -/

theorem take_eq_of_agree {T : Type} (a b : List T) (n : Nat)
    (h : ∀ i x, i < n → a[i]? = some x → b[i]? = some x)
    (hn : n ≤ a.length) : b.take n = a.take n := by
  apply List.ext_getElem?
  intro i
  by_cases hi : i < n
  · rw [List.getElem?_take_of_lt hi, List.getElem?_take_of_lt hi]
    have hia : i < a.length := by omega
    rw [h i _ hi (List.getElem?_eq_getElem hia), List.getElem?_eq_getElem hia]
  · rw [List.getElem?_take_eq_none (by omega),
      List.getElem?_take_eq_none (by omega)]

theorem history_push {T : Type} [Inhabited T] {d : Int} (q q1 : queue T d)
    (v : T) (h : RepInv q) (hp : q.push v = .ok q1) :
    history q1 = history q ++ [v] := by
  obtain ⟨_, _, ht, _, hv, hfr⟩ := push_frame q q1 v h hp
  obtain ⟨h0, h1, h2, h3⟩ := h
  unfold history
  have e : q1.tail.toNat = q.tail.toNat + 1 := by omega
  rw [e, List.take_succ, hv]
  rw [take_eq_of_agree q.array q1.array q.tail.toNat
    (fun i x hi hx => hfr i x (by omega) hx) (by omega)]
  rfl

theorem live_push {T : Type} [Inhabited T] {d : Int} (q q1 : queue T d)
    (v : T) (h : RepInv q) (hp : q.push v = .ok q1) :
    live q1 = live q ++ [v] := by
  have hh := history_push q q1 v h hp
  obtain ⟨_, hhd, _, _, _, _⟩ := push_frame q q1 v h hp
  obtain ⟨h0, h1, h2, h3⟩ := h
  unfold live
  rw [hh, hhd, List.drop_append_of_le_length]
  unfold history
  rw [List.length_take]
  omega

theorem length_history {T : Type} {d : Int} (q : queue T d) (h : RepInv q) :
    (history q).length = q.tail.toNat := by
  obtain ⟨h0, h1, h2, h3⟩ := h
  unfold history
  rw [List.length_take]
  omega

theorem length_live {T : Type} {d : Int} (q : queue T d) (h : RepInv q) :
    (live q).length = (q.tail - q.head).toNat := by
  have hl := length_history q h
  obtain ⟨h0, h1, h2, h3⟩ := h
  unfold live
  rw [List.length_drop, hl]
  omega

theorem history_getElem? {T : Type} {d : Int} (q : queue T d) (i : Nat)
    (hi : (i : Int) < q.tail) : (history q)[i]? = q.array[i]? := by
  unfold history
  rw [List.getElem?_take_of_lt (by omega)]

theorem live_getElem? {T : Type} {d : Int} (q : queue T d) (h : RepInv q)
    (i : Nat) (hi : i < (q.tail - q.head).toNat) :
    (live q)[i]? = q.array[((i : Int) + q.head).toNat]? := by
  obtain ⟨h0, h1, h2, h3⟩ := h
  unfold live
  rw [List.getElem?_drop, history_getElem? q _ (by omega)]
  congr 1
  omega

theorem live_pop {T : Type} {d : Int} (q : queue T d) (h : RepInv q)
    (hlt : q.head < q.tail) (x : T) (hx : q.array[q.head.toNat]? = some x) :
    live q = x :: live (⟨q.array, q.head + 1, q.tail, q.capacity⟩ : queue T d) := by
  obtain ⟨h0, h1, h2, h3⟩ := h
  unfold live
  have hh : history (⟨q.array, q.head + 1, q.tail, q.capacity⟩ : queue T d) =
      history q := rfl
  rw [hh]
  have hin : q.head.toNat < (history q).length := by
    unfold history
    rw [List.length_take]
    omega
  rw [List.drop_eq_getElem_cons hin]
  have e : (q.head + 1).toNat = q.head.toNat + 1 := by omega
  simp only [e]
  congr 1
  have h2 := history_getElem? q q.head.toNat (by omega)
  rw [List.getElem?_eq_getElem hin, hx] at h2
  injection h2

/-! ## Accessors -/

theorem get_size_eq {T : Type} {d : Int} (q : queue T d) (h : RepInv q) :
    q.get_size = .ok (q.tail - q.head).toNat := by
  unfold queue.get_size
  rw [if_pos h.2.1]

theorem get_eq {T : Type} {d : Int} (q : queue T d) (h : RepInv q) (idx : Nat)
    (hi : idx < (q.tail - q.head).toNat) :
    ∃ x, q.get idx = .ok x ∧ (live q)[idx]? = some x ∧
      q.array[((idx : Int) + q.head).toNat]? = some x := by
  have hl := live_getElem? q h idx hi
  obtain ⟨h0, h1, h2, h3⟩ := h
  have hin : ((idx : Int) + q.head).toNat < q.array.length := by omega
  refine ⟨q.array.get ⟨_, hin⟩, ?_, ?_, ?_⟩
  · unfold queue.get queue.get_size
    rw [if_pos h1]
    simp only
    rw [if_pos hi, read_inside q.array _ (by omega) hin]
  · rw [hl]
    simp [List.getElem?_eq_getElem hin]
  · simp [List.getElem?_eq_getElem hin]

theorem low_level_get_eq {T : Type} {d : Int} (q : queue T d) (h : RepInv q)
    (i : Nat) (hi : (i : Int) < q.capacity) :
    ∃ x, q.low_level_get i = .ok x ∧ q.array[i]? = some x := by
  obtain ⟨h0, h1, h2, h3⟩ := h
  have hin : i < q.array.length := by omega
  refine ⟨q.array.get ⟨i, hin⟩, ?_, ?_⟩
  · unfold queue.low_level_get
    exact read_nat _ _ _ (by simp [List.getElem?_eq_getElem hin])
  · simp [List.getElem?_eq_getElem hin]

/-! ## FIFO order -/

theorem live_construct {T : Type} {d : Int} (c : Int) (fresh : Nat → T) :
    live (queue.construct c fresh : queue T d) = [] := by
  unfold live history queue.construct queue.reset
  simp

theorem history_construct {T : Type} {d : Int} (c : Int) (fresh : Nat → T) :
    history (queue.construct c fresh : queue T d) = [] := by
  unfold history queue.construct queue.reset
  simp

theorem tail_construct {T : Type} {d : Int} (c : Int) (fresh : Nat → T) :
    (queue.construct c fresh : queue T d).tail = 0 := by
  unfold queue.construct queue.reset
  simp

theorem head_construct {T : Type} {d : Int} (c : Int) (fresh : Nat → T) :
    (queue.construct c fresh : queue T d).head = 0 := by
  unfold queue.construct queue.reset
  simp

theorem capacity_construct {T : Type} {d : Int} (c : Int) (fresh : Nat → T) :
    (queue.construct c fresh : queue T d).capacity = c := by
  unfold queue.construct queue.reset
  by_cases hc : c = 0
  · simp [hc]
  · simp [hc]

/-- Below `2^30` written slots a push has room or a capacity it can double. -/
theorem fits_of_tail_lt {T : Type} {d : Int} (q : queue T d)
    (hd : 0 < d) (ht : q.tail < 2 ^ 30) :
    q.tail < q.capacity ∨ (0 < d ∧ 2 * q.capacity ≤ INT_MAX) := by
  by_cases hroom : q.tail < q.capacity
  · exact Or.inl hroom
  · right
    refine ⟨hd, ?_⟩
    unfold INT_MAX
    omega

/-- On a full buffer whose doubled capacity does not fit an `int`, `push`
halts in `expand`. -/
theorem push_overflow {T : Type} [Inhabited T] {d : Int} (q : queue T d)
    (v : T) (h : RepInv q) (hfull : q.tail = q.capacity)
    (hover : INT_MAX < 2 * q.capacity) : q.push v = .error Fault.overflow := by
  unfold queue.push
  rw [if_pos h.2.1, if_pos (by omega), expand_overflow q hover]

theorem RepInv_pop {T : Type} {d : Int} (q : queue T d) (h : RepInv q)
    (hlt : q.head < q.tail) :
    RepInv (⟨q.array, q.head + 1, q.tail, q.capacity⟩ : queue T d) := by
  obtain ⟨h0, h1, h2, h3⟩ := h
  unfold RepInv
  simp only
  omega

/-- A guarded run with at most `2^30` written slots in the end completes. -/
theorem run_total {T : Type} [Inhabited T] {d : Int} (hd : 0 < d)
    (ops : List (Op T)) :
    ∀ q : queue T d, RepInv q →
      q.tail + ((pushed ops).length : Int) ≤ 2 ^ 30 → guarded q ops = true →
      ∃ outs q1, run q ops = .ok (outs, q1) := by
  induction ops with
  | nil =>
    intro q _ _ _
    exact ⟨[], q, rfl⟩
  | cons op rest ih =>
    intro q hq hb hg
    cases op with
    | push v =>
      simp only [pushed, List.length_cons, Nat.cast_add, Nat.cast_one] at hb
      obtain ⟨q1, hp⟩ := push_ok q v hq (fits_of_tail_lt q hd (by omega))
      obtain ⟨hq1, _, ht, _, _, _⟩ := push_frame q q1 v hq hp
      simp only [guarded, hp] at hg
      obtain ⟨outs, q2, hr⟩ := ih q1 hq1 (by omega) hg
      exact ⟨outs, q2, by simp only [run, hp, hr]⟩
    | pop =>
      have hs := get_size_eq q hq
      simp only [guarded, hs, Bool.and_eq_true, decide_eq_true_eq] at hg
      obtain ⟨hpos, hg⟩ := hg
      have hlt : q.head < q.tail := by omega
      obtain ⟨x, hx, hp⟩ := pop_ok q hq hlt
      simp only [hp] at hg
      simp only [pushed] at hb
      obtain ⟨outs, q2, hr⟩ := ih _ (RepInv_pop q hq hlt) hb hg
      exact ⟨x :: outs, q2, by simp only [run, hp, hr]⟩

/-- In a completed run the pops have returned the front of the live window
followed by the pushed values. -/
theorem run_fifo {T : Type} [Inhabited T] {d : Int} (ops : List (Op T)) :
    ∀ (q : queue T d) (outs : List T) (q1 : queue T d), RepInv q →
      run q ops = .ok (outs, q1) →
      outs.length = pops ops ∧
        outs = (live q ++ pushed ops).take outs.length := by
  induction ops with
  | nil =>
    intro q outs q1 _ hr
    simp only [run] at hr
    injection hr with hr
    injection hr with ho _
    subst ho
    exact ⟨rfl, by simp⟩
  | cons op rest ih =>
    intro q outs q1 hq hr
    cases op with
    | push v =>
      simp only [run] at hr
      cases hp : q.push v with
      | error e => rw [hp] at hr; cases hr
      | ok q2 =>
        rw [hp] at hr
        have hq2 := (push_frame q q2 v hq hp).1
        have hl := live_push q q2 v hq hp
        obtain ⟨hlen, ho⟩ := ih q2 outs q1 hq2 hr
        refine ⟨by simpa [pops] using hlen, ?_⟩
        rw [hl] at ho
        simpa [pushed, List.append_assoc] using ho
    | pop =>
      simp only [run] at hr
      cases hp : q.pop with
      | error e => rw [hp] at hr; cases hr
      | ok r =>
        obtain ⟨x, q2⟩ := r
        rw [hp] at hr
        simp only at hr
        obtain ⟨hlt, hread, e⟩ := pop_frame q q2 x hp
        subst e
        cases hrest : run (⟨q.array, q.head + 1, q.tail, q.capacity⟩ : queue T d)
            rest with
        | error e => rw [hrest] at hr; cases hr
        | ok r2 =>
          obtain ⟨xs, q3⟩ := r2
          rw [hrest] at hr
          injection hr with hr
          injection hr with ho _
          subst ho
          obtain ⟨hlen, ho⟩ := ih _ xs q3 (RepInv_pop q hq hlt) hrest
          have hx := ((read_eq_ok _ _ _).mp hread).2
          have hl := live_pop q hq hlt x hx
          refine ⟨by simpa [pops] using hlen, ?_⟩
          rw [hl]
          simp only [pushed, List.length_cons, List.cons_append,
            List.take_succ_cons]
          rw [← ho]

/-- A run of `n` pushes into a buffer with room for them neither halts nor
expands. -/
theorem run_pushes_room {T : Type} [Inhabited T] {d : Int} (v : T) (n : Nat) :
    ∀ q : queue T d, RepInv q → q.tail + (n : Int) ≤ q.capacity →
      ∃ q1, RepInv q1 ∧ q1.tail = q.tail + (n : Int) ∧
        q1.capacity = q.capacity ∧
        ∀ rest, run q (List.replicate n (Op.push v) ++ rest) = run q1 rest ∧
          guarded q (List.replicate n (Op.push v) ++ rest) = guarded q1 rest := by
  induction n with
  | zero =>
    intro q hq _
    exact ⟨q, hq, by simp, rfl, fun rest => ⟨rfl, rfl⟩⟩
  | succ n ih =>
    intro q hq hroom
    rw [Nat.cast_succ] at hroom
    obtain ⟨q1, hp⟩ := push_ok q v hq (Or.inl (by omega))
    obtain ⟨hq1, _, ht, hc, _, _⟩ := push_frame q q1 v hq hp
    rw [if_neg (by omega)] at hc
    obtain ⟨q2, hq2, ht2, hc2, hrun⟩ := ih q1 hq1 (by omega)
    refine ⟨q2, hq2, ?_, by rw [hc2, hc], ?_⟩
    · rw [ht2, ht, Nat.cast_succ]
      omega
    · intro rest
      rw [List.replicate_succ, List.cons_append]
      constructor
      · simp only [run, hp]
        exact (hrun rest).1
      · simp only [guarded, hp]
        exact (hrun rest).2

/-- C1, refuted as stated.  (1) On a queue constructed with capacity `2^30`,
after `2^30` pushes the buffer is full; the next push doubles the capacity,
`2 * 2^30` overflows `int`, the push does not return and the pop after it
returns nothing, although every pop is issued as the claim requires.  (2) With
default capacity `0` the first push on an empty buffer writes outside it. -/
theorem fifo_order_counterexample :
    (guarded (queue.construct (2 ^ 30) (fun _ => 0) : queue Nat 64)
        (List.replicate (2 ^ 30) (Op.push 0) ++ [Op.push 0, Op.pop]) = true ∧
      run (queue.construct (2 ^ 30) (fun _ => 0) : queue Nat 64)
        (List.replicate (2 ^ 30) (Op.push 0) ++ [Op.push 0, Op.pop]) =
          .error Fault.overflow) ∧
    (guarded (queue.construct 0 (fun _ => 0) : queue Nat 0)
        [Op.push 7, Op.pop] = true ∧
      run (queue.construct 0 (fun _ => 0) : queue Nat 0) [Op.push 7, Op.pop] =
        .error Fault.out_of_bounds) := by
  refine ⟨?_, by decide, by decide⟩
  obtain ⟨q1, hq1, ht, hc, hrun⟩ := run_pushes_room (0 : Nat) (2 ^ 30)
    (queue.construct (2 ^ 30) (fun _ => 0) : queue Nat 64)
    (RepInv_construct _ _ (by norm_num))
    (by rw [tail_construct, capacity_construct]; norm_num)
  rw [tail_construct] at ht
  rw [capacity_construct] at hc
  have hp : q1.push 0 = .error Fault.overflow :=
    push_overflow q1 0 hq1 (by rw [ht, hc]; norm_num)
      (by rw [hc]; unfold INT_MAX; norm_num)
  rw [(hrun _).1, (hrun _).2]
  constructor
  · simp only [guarded, hp]
  · simp only [run, hp]

/-- C1, amended (FIFO order).  From a newly constructed queue, any initial
capacity `c ≥ 0`: in every sequence of `push` and `pop` calls that runs to
completion, the values returned by the pops are, in order, the first values
pushed, as many as there were pops, whatever the number of expansions; and a
sequence whose pops are each issued with `get_size() > 0` does run to
completion when the default capacity is positive and at most `2^30` values are
pushed. -/
theorem fifo_order {T : Type} [Inhabited T] {d : Int} (c : Int)
    (fresh : Nat → T) (hc : 0 ≤ c) (ops : List (Op T)) :
    (∀ outs q1, run (queue.construct c fresh : queue T d) ops = .ok (outs, q1) →
      outs.length = pops ops ∧ outs.length ≤ (pushed ops).length ∧
      outs = (pushed ops).take outs.length) ∧
    (0 < d → (pushed ops).length ≤ 2 ^ 30 →
      guarded (queue.construct c fresh : queue T d) ops = true →
      ∃ outs q1, run (queue.construct c fresh : queue T d) ops = .ok (outs, q1)) := by
  constructor
  · intro outs q1 hr
    obtain ⟨hlen, ho⟩ :=
      run_fifo ops (queue.construct c fresh) outs q1 (RepInv_construct c fresh hc) hr
    rw [live_construct, List.nil_append] at ho
    refine ⟨hlen, ?_, ho⟩
    have := congrArg List.length ho
    rw [List.length_take] at this
    omega
  · intro hd hb hg
    apply run_total hd ops (queue.construct c fresh) (RepInv_construct c fresh hc) _ hg
    rw [tail_construct]
    have : ((pushed ops).length : Int) ≤ ((2 ^ 30 : Nat) : Int) := Int.ofNat_le.mpr hb
    norm_num at this
    omega

theorem fifo_order_witness :
    ∃ outs q1, run (queue.construct 1 (fun _ => 9) : queue Nat 2)
        [Op.push 1, Op.push 2, Op.pop, Op.push 3, Op.pop] = .ok (outs, q1) ∧
      outs.length = pops [Op.push 1, Op.push 2, Op.pop, Op.push 3, Op.pop] ∧
      outs = (pushed [Op.push 1, Op.push 2, Op.pop, Op.push 3, Op.pop]).take
        outs.length :=
  ((fifo_order 1 (fun _ => 9) (by decide)
      [Op.push 1, Op.push 2, Op.pop, Op.push 3, Op.pop]).2
    (by decide) (by decide) (by decide)).imp
    (fun outs h => h.imp (fun q1 hr =>
      have hf := (fifo_order 1 (fun _ => 9) (by decide)
        [Op.push 1, Op.push 2, Op.pop, Op.push 3, Op.pop]).1 outs q1 hr
      ⟨hr, hf.1, hf.2.2⟩))

/-! ## Runs of pushes -/

/-- What a completed run of pushes has done. -/
theorem push_all_frame {T : Type} [Inhabited T] {d : Int} (vs : List T) :
    ∀ q q1 : queue T d, RepInv q → push_all q vs = .ok q1 →
      RepInv q1 ∧ q1.head = q.head ∧ q1.tail = q.tail + (vs.length : Int) ∧
        history q1 = history q ++ vs ∧
        (q.tail + (vs.length : Int) ≤ q.capacity → q1.capacity = q.capacity) := by
  induction vs with
  | nil =>
    intro q q1 hq hr
    simp only [push_all] at hr
    injection hr with hr
    subst hr
    exact ⟨hq, rfl, by simp, by simp, fun _ => rfl⟩
  | cons v rest ih =>
    intro q q1 hq hr
    simp only [push_all] at hr
    cases hp : q.push v with
    | error e => rw [hp] at hr; cases hr
    | ok q2 =>
      rw [hp] at hr
      obtain ⟨hq2, hh, ht, hc, _, _⟩ := push_frame q q2 v hq hp
      have hhist := history_push q q2 v hq hp
      obtain ⟨hq1, hh1, ht1, hhist1, hc1⟩ := ih q2 q1 hq2 hr
      refine ⟨hq1, by rw [hh1, hh], ?_, ?_, ?_⟩
      · rw [ht1, ht]
        simp only [List.length_cons, Nat.cast_add, Nat.cast_one]
        omega
      · rw [hhist1, hhist]
        simp
      · intro hroom
        simp only [List.length_cons, Nat.cast_add, Nat.cast_one] at hroom
        have := hq.2.2.1
        rw [hc1 (by rw [hc, if_neg (by omega)]; omega), hc, if_neg (by omega)]

/-- A run of pushes completes when there is room for all of them, or when the
default capacity is positive and at most `2^30` slots are written in the
end. -/
theorem push_all_ok {T : Type} [Inhabited T] {d : Int} (vs : List T) :
    ∀ q : queue T d, RepInv q →
      ((0 < d ∧ q.tail + (vs.length : Int) ≤ 2 ^ 30) ∨
        q.tail + (vs.length : Int) ≤ q.capacity) →
      ∃ q1, push_all q vs = .ok q1 := by
  induction vs with
  | nil =>
    intro q _ _
    exact ⟨q, rfl⟩
  | cons v rest ih =>
    intro q hq hd
    simp only [List.length_cons, Nat.cast_add, Nat.cast_one] at hd
    have hd1 : q.tail < q.capacity ∨ (0 < d ∧ 2 * q.capacity ≤ INT_MAX) := by
      rcases hd with ⟨hd, hb⟩ | hd
      · exact fits_of_tail_lt q hd (by omega)
      · left
        omega
    obtain ⟨q1, hp⟩ := push_ok q v hq hd1
    obtain ⟨hq1, hh, ht, hc, _, _⟩ := push_frame q q1 v hq hp
    have hd2 : (0 < d ∧ q1.tail + (rest.length : Int) ≤ 2 ^ 30) ∨
        q1.tail + (rest.length : Int) ≤ q1.capacity := by
      rcases hd with ⟨hd, hb⟩ | hd
      · exact Or.inl ⟨hd, by omega⟩
      · right
        rw [hc, if_neg (by omega)]
        omega
    obtain ⟨q2, hr⟩ := ih q1 hq1 hd2
    exact ⟨q2, by simp only [push_all, hp, hr]⟩

theorem push_all_spec {T : Type} [Inhabited T] {d : Int} (vs : List T) :
    ∀ q : queue T d, RepInv q →
      ((0 < d ∧ q.tail + (vs.length : Int) ≤ 2 ^ 30) ∨
        q.tail + (vs.length : Int) ≤ q.capacity) →
      ∃ q1, push_all q vs = .ok q1 ∧ RepInv q1 ∧ q1.head = q.head ∧
        q1.tail = q.tail + (vs.length : Int) ∧
        history q1 = history q ++ vs ∧
        (q.tail + (vs.length : Int) ≤ q.capacity → q1.capacity = q.capacity) := by
  intro q hq hd
  obtain ⟨q1, hr⟩ := push_all_ok vs q hq hd
  exact ⟨q1, hr, push_all_frame vs q q1 hq hr⟩

theorem push_all_append {T : Type} [Inhabited T] {d : Int} (xs ys : List T) :
    ∀ q q1 : queue T d, push_all q xs = .ok q1 →
      push_all q (xs ++ ys) = push_all q1 ys := by
  induction xs with
  | nil =>
    intro q q1 hr
    simp only [push_all] at hr
    injection hr with hr
    subst hr
    rfl
  | cons x rest ih =>
    intro q q1 hr
    simp only [push_all] at hr
    cases hp : q.push x with
    | error e => rw [hp] at hr; cases hr
    | ok q2 =>
      rw [hp] at hr
      rw [List.cons_append]
      simp only [push_all, hp]
      exact ih q2 q1 hr

/-- C2, refuted as stated.  (1) On a queue constructed with capacity `2^30`,
the push number `2^30 + 1` finds the buffer full, `2 * 2^30` overflows `int`
in `expand` and the push does not return, so nothing is logged for `n = 2^30 +
1`.  (2) With default capacity `0` the first push on an empty buffer writes
outside it. -/
theorem pushes_are_logged_counterexample :
    push_all (queue.construct (2 ^ 30) (fun _ => 0) : queue Nat 64)
        (List.replicate (2 ^ 30) 0 ++ [0]) = .error Fault.overflow ∧
      push_all (queue.construct 0 (fun _ => 0) : queue Nat 0) [7] =
        .error Fault.out_of_bounds := by
  refine ⟨?_, by decide⟩
  obtain ⟨q1, hr, hq1, _, ht, _, hc⟩ := push_all_spec (List.replicate (2 ^ 30) 0)
    (queue.construct (2 ^ 30) (fun _ => 0) : queue Nat 64)
    (RepInv_construct _ _ (by norm_num))
    (Or.inr (by
      rw [tail_construct, capacity_construct, List.length_replicate]
      norm_num))
  have hc := hc (by
    rw [tail_construct, capacity_construct, List.length_replicate]
    norm_num)
  rw [tail_construct, List.length_replicate] at ht
  rw [capacity_construct] at hc
  have hp : q1.push 0 = .error Fault.overflow :=
    push_overflow q1 0 hq1 (by rw [ht, hc]; norm_num)
      (by rw [hc]; unfold INT_MAX; norm_num)
  rw [push_all_append _ _ _ q1 hr]
  simp only [push_all, hp]

/-- C2, amended (insertion log).  For every list of `n` values pushed in order,
with no pop, onto a newly constructed queue (any initial capacity `c ≥ 0`):
when the pushes run to completion, `get_num_elems_inserted()` is `n` and
`low_level_get(i)` is the `i`-th pushed value for every `i < n`; and they do
run to completion when the default capacity is positive and `n ≤ 2^30`. -/
theorem pushes_are_logged {T : Type} [Inhabited T] {d : Int} (c : Int)
    (fresh : Nat → T) (hc : 0 ≤ c) (vs : List T) :
    (∀ q1, push_all (queue.construct c fresh : queue T d) vs = .ok q1 →
      q1.get_num_elems_inserted = vs.length ∧
      ∀ (i : Nat) (hi : i < vs.length), q1.low_level_get i = .ok vs[i]) ∧
    (0 < d → vs.length ≤ 2 ^ 30 →
      ∃ q1, push_all (queue.construct c fresh : queue T d) vs = .ok q1) := by
  constructor
  · intro q1 hr
    obtain ⟨hq1, _, ht, hh, _⟩ :=
      push_all_frame vs (queue.construct c fresh : queue T d) q1
        (RepInv_construct c fresh hc) hr
    rw [tail_construct] at ht
    rw [history_construct, List.nil_append] at hh
    refine ⟨?_, ?_⟩
    · unfold queue.get_num_elems_inserted
      omega
    · intro i hi
      have hlt : (i : Int) < q1.tail := by omega
      obtain ⟨x, hx, hax⟩ :=
        low_level_get_eq q1 hq1 i (by have := hq1.2.2.1; omega)
      have hg := history_getElem? q1 i hlt
      rw [hh, hax, List.getElem?_eq_getElem hi] at hg
      injection hg with hg
      rw [hx, hg]
  · intro hd hb
    apply push_all_ok vs (queue.construct c fresh) (RepInv_construct c fresh hc)
    left
    refine ⟨hd, ?_⟩
    rw [tail_construct]
    have : ((vs.length : Nat) : Int) ≤ ((2 ^ 30 : Nat) : Int) := Int.ofNat_le.mpr hb
    norm_num at this
    omega

theorem pushes_are_logged_witness :
    ∃ q1, push_all (queue.construct 2 (fun _ => 9) : queue Nat 64) [4, 5, 6] = .ok q1 ∧
      q1.get_num_elems_inserted = [4, 5, 6].length ∧
      ∀ (i : Nat) (hi : i < [4, 5, 6].length), q1.low_level_get i = .ok [4, 5, 6][i] :=
  ((pushes_are_logged 2 (fun _ => 9) (by decide) [4, 5, 6]).2
    (by decide) (by decide)).imp
    (fun q1 hr =>
      ⟨hr, (pushes_are_logged 2 (fun _ => 9) (by decide) [4, 5, 6]).1 q1 hr⟩)

/-! ## Reading through the live window and through the log -/

theorem get_of_live {T : Type} {d : Int} (q : queue T d) (h : RepInv q)
    (i : Nat) (x : T) (hx : (live q)[i]? = some x) : q.get i = .ok x := by
  have hi : i < (q.tail - q.head).toNat := by
    rw [← length_live q h]
    exact (List.getElem?_eq_some.mp hx).1
  obtain ⟨y, hy, hly, _⟩ := get_eq q h i hi
  rw [hx] at hly
  injection hly with hly
  rw [hy, hly]

theorem low_level_get_of_history {T : Type} {d : Int} (q : queue T d)
    (h : RepInv q) (i : Nat) (x : T) (hx : (history q)[i]? = some x) :
    q.low_level_get i = .ok x := by
  have hi : i < q.tail.toNat := by
    rw [← length_history q h]
    exact (List.getElem?_eq_some.mp hx).1
  have ht := h.2.2.1
  have h0 := h.1
  have h1 := h.2.1
  obtain ⟨y, hy, hay⟩ := low_level_get_eq q h i (by omega)
  rw [history_getElem? q i (by omega), hay] at hx
  injection hx with hx
  rw [hy, hx]

theorem get_agree {T : Type} {d : Int} (q q1 : queue T d) (h : RepInv q)
    (h1 : RepInv q1) (i : Nat) (hi : i < (q.tail - q.head).toNat)
    (hl : (live q1)[i]? = (live q)[i]?) :
    ∃ x, q.get i = .ok x ∧ q1.get i = .ok x := by
  obtain ⟨x, hx, hlx, _⟩ := get_eq q h i hi
  exact ⟨x, hx, get_of_live q1 h1 i x (by rw [hl, hlx])⟩

theorem low_level_get_agree {T : Type} {d : Int} (q q1 : queue T d)
    (h : RepInv q) (h1 : RepInv q1) (i : Nat) (hi : (i : Int) < q.tail)
    (hl : (history q1)[i]? = (history q)[i]?) :
    ∃ x, q.low_level_get i = .ok x ∧ q1.low_level_get i = .ok x := by
  have ht := h.2.2.1
  obtain ⟨x, hx, hax⟩ := low_level_get_eq q h i (by omega)
  refine ⟨x, hx, low_level_get_of_history q1 h1 i x ?_⟩
  rw [hl, history_getElem? q i hi, hax]

theorem reachable_push_all {T : Type} [Inhabited T] {d : Int} (vs : List T) :
    ∀ q q1 : queue T d, Reachable q → push_all q vs = .ok q1 → Reachable q1 := by
  induction vs with
  | nil =>
    intro q q1 hq hr
    simp only [push_all] at hr
    injection hr with hr
    subst hr
    exact hq
  | cons v rest ih =>
    intro q q1 hq hr
    simp only [push_all] at hr
    cases hp : q.push v with
    | error e => rw [hp] at hr; cases hr
    | ok q2 =>
      rw [hp] at hr
      exact ih q2 q1 (Reachable.push q q2 v hq hp) hr

/-- The state after `2^30` pushes of `0` on a queue constructed with capacity
`2^30`: a full buffer whose capacity cannot be doubled in an `int`. -/
theorem reachable_full_buffer :
    Reachable (⟨List.replicate (2 ^ 30) 0, 0, 2 ^ 30, 2 ^ 30⟩ : queue Nat 64) := by
  obtain ⟨q1, hr, hq1, hh, ht, hhist, hc⟩ :=
    push_all_spec (List.replicate (2 ^ 30) 0)
      (queue.construct (2 ^ 30) (fun _ => 0) : queue Nat 64)
      (RepInv_construct _ _ (by norm_num))
      (Or.inr (by
        rw [tail_construct, capacity_construct, List.length_replicate]
        norm_num))
  have hc := hc (by
    rw [tail_construct, capacity_construct, List.length_replicate]
    norm_num)
  rw [tail_construct, List.length_replicate] at ht
  rw [capacity_construct] at hc
  rw [head_construct] at hh
  rw [history_construct, List.nil_append] at hhist
  have hreach : Reachable q1 :=
    reachable_push_all _ _ q1 (Reachable.construct _ _ (by norm_num)) hr
  have hlen : q1.array.length = q1.tail.toNat := by
    rw [hq1.2.2.2, hc, ht]
    norm_num
  have harr : q1.array = List.replicate (2 ^ 30) 0 := by
    rw [← hhist]
    unfold history
    rw [← hlen, List.take_length]
  have e : q1 = ⟨List.replicate (2 ^ 30) 0, 0, 2 ^ 30, 2 ^ 30⟩ := by
    obtain ⟨a, h, t, c⟩ := q1
    simp only at harr hh ht hc
    rw [harr, hh, ht, hc]
    norm_num
  rw [← e]
  exact hreach

theorem RepInv_full_buffer :
    RepInv (⟨List.replicate (2 ^ 30) 0, 0, 2 ^ 30, 2 ^ 30⟩ : queue Nat 64) :=
  reachable_full_buffer.inv

/-- C3, refuted as stated.  (1) In the reachable state with `tail == capacity
== 2^30` (constructor with capacity `2^30`, then `2^30` pushes) `push` enters
`expand`, `2 * 2^30` overflows `int` and the push does not return.  (2) With
default capacity `0` the first push on an empty buffer writes outside it. -/
theorem push_appends_counterexample :
    (Reachable (⟨List.replicate (2 ^ 30) 0, 0, 2 ^ 30, 2 ^ 30⟩ : queue Nat 64) ∧
      (⟨List.replicate (2 ^ 30) 0, 0, 2 ^ 30, 2 ^ 30⟩ : queue Nat 64).push 1 =
        .error Fault.overflow) ∧
    (Reachable (queue.construct 0 (fun _ => 0) : queue Nat 0) ∧
      (queue.construct 0 (fun _ => 0) : queue Nat 0).push 1 =
        .error Fault.out_of_bounds) :=
  ⟨⟨reachable_full_buffer,
      push_overflow _ 1 RepInv_full_buffer rfl (by unfold INT_MAX; norm_num)⟩,
    ⟨Reachable.construct 0 (fun _ => 0) (by decide), by decide⟩⟩

/-- C3, amended (push appends).  With a positive default capacity, in every
reachable state, of size `s`, whose buffer has room (`tail < capacity`) or
whose capacity can be doubled in an `int` (`2 * capacity ≤ INT_MAX`),
`push(v)` returns; afterwards `get_size()` is `s + 1`, `get(s)` is `v`,
`get(i)` is what it was for every `i < s`, and `head` is what it was, whether
or not the push expanded the buffer. -/
theorem push_appends {T : Type} [Inhabited T] {d : Int} (hd : 0 < d)
    (q : queue T d) (hr : Reachable q)
    (hfit : q.tail < q.capacity ∨ 2 * q.capacity ≤ INT_MAX) (v : T) :
    ∃ q1 s, q.push v = .ok q1 ∧ q.get_size = .ok s ∧
      q1.get_size = .ok (s + 1) ∧ q1.get s = .ok v ∧
      (∀ i, i < s → ∃ x, q.get i = .ok x ∧ q1.get i = .ok x) ∧
      q1.head = q.head := by
  have hq := hr.inv
  obtain ⟨q1, hp, hq1, hh, ht, _, _, _⟩ :=
    push_spec q v hq (hfit.imp id (fun h => ⟨hd, h⟩))
  have hl := live_push q q1 v hq hp
  have hlen := length_live q hq
  obtain ⟨h0, h1, h2, h3⟩ := hq
  refine ⟨q1, (q.tail - q.head).toNat, hp, get_size_eq q hr.inv, ?_, ?_, ?_, hh⟩
  · rw [get_size_eq q1 hq1]
    congr 1
    omega
  · apply get_of_live q1 hq1
    rw [hl, List.getElem?_append_right (by omega), hlen]
    simp
  · intro i hi
    apply get_agree q q1 hr.inv hq1 i hi
    rw [hl, List.getElem?_append_left (by omega)]

theorem push_appends_witness :
    ∃ q1 s, (⟨[7, 8], 1, 2, 2⟩ : queue Nat 2).push 9 = .ok q1 ∧
      (⟨[7, 8], 1, 2, 2⟩ : queue Nat 2).get_size = .ok s ∧
      q1.get_size = .ok (s + 1) ∧ q1.get s = .ok 9 ∧
      (∀ i, i < s → ∃ x, (⟨[7, 8], 1, 2, 2⟩ : queue Nat 2).get i = .ok x ∧
        q1.get i = .ok x) ∧
      q1.head = (⟨[7, 8], 1, 2, 2⟩ : queue Nat 2).head :=
  push_appends (by decide) (⟨[7, 8], 1, 2, 2⟩ : queue Nat 2)
    (Reachable.pop ⟨[7, 8], 0, 2, 2⟩ _ 7
      (Reachable.push ⟨[7, 0], 0, 1, 2⟩ _ 8
        (Reachable.push (queue.construct 0 (fun _ => 0)) _ 7
          (Reachable.construct 0 (fun _ => 0) (by decide)) (by decide))
        (by decide))
      (by decide))
    (Or.inr (by decide)) 9

/-- C4, refuted as stated.  (1) In the reachable state with `tail == capacity
== c == 2^30` the product `2 * c` overflows `int` in `expand`: the push
returns no state, so there is no new capacity `≥ 2c`.  (2) With default
capacity `0`, in the new queue with `tail == capacity == 0` the push writes
outside the buffer and returns no state with the default capacity. -/
theorem growth_doubles_counterexample :
    (Reachable (⟨List.replicate (2 ^ 30) 0, 0, 2 ^ 30, 2 ^ 30⟩ : queue Nat 64) ∧
      (⟨List.replicate (2 ^ 30) 0, 0, 2 ^ 30, 2 ^ 30⟩ : queue Nat 64).tail =
        (⟨List.replicate (2 ^ 30) 0, 0, 2 ^ 30, 2 ^ 30⟩ : queue Nat 64).capacity ∧
      0 < (⟨List.replicate (2 ^ 30) 0, 0, 2 ^ 30, 2 ^ 30⟩ : queue Nat 64).capacity ∧
      ∀ q1, (⟨List.replicate (2 ^ 30) 0, 0, 2 ^ 30, 2 ^ 30⟩ : queue Nat 64).push 1 ≠
        .ok q1) ∧
    (Reachable (queue.construct 0 (fun _ => 0) : queue Nat 0) ∧
      (queue.construct 0 (fun _ => 0) : queue Nat 0).tail =
        (queue.construct 0 (fun _ => 0) : queue Nat 0).capacity ∧
      (queue.construct 0 (fun _ => 0) : queue Nat 0).capacity = 0 ∧
      ∀ q1, (queue.construct 0 (fun _ => 0) : queue Nat 0).push 1 ≠ .ok q1) := by
  refine ⟨⟨reachable_full_buffer, rfl, by norm_num, ?_⟩,
    ⟨Reachable.construct 0 (fun _ => 0) (by decide), by decide, by decide, ?_⟩⟩
  · intro q1 h
    rw [push_overflow _ 1 RepInv_full_buffer rfl (by unfold INT_MAX; norm_num)] at h
    cases h
  · intro q1 h
    have e : (queue.construct 0 (fun _ => 0) : queue Nat 0).push 1 =
        .error Fault.out_of_bounds := by decide
    rw [e] at h
    cases h

/-- C4, amended (growth by doubling).  With a positive default capacity, in
every reachable state whose buffer has room or whose capacity can be doubled
in an `int` (`2 * capacity ≤ INT_MAX`), `push` returns.  When the buffer is
full (`tail == capacity == c`) the new capacity is at least `2c` for `c > 0`
and is `default_capacity` for `c == 0`; when there is room the capacity is
unchanged.  In both cases `get(i)` for every `i` below the old size and
`low_level_get(i)` for every `i` below the old `tail` return what they
returned before. -/
theorem growth_doubles {T : Type} [Inhabited T] {d : Int} (hd : 0 < d)
    (q : queue T d) (hr : Reachable q)
    (hfit : q.tail < q.capacity ∨ 2 * q.capacity ≤ INT_MAX) (v : T) :
    ∃ q1, q.push v = .ok q1 ∧
      (q.tail = q.capacity → 0 < q.capacity → 2 * q.capacity ≤ q1.capacity) ∧
      (q.tail = q.capacity → q.capacity = 0 → q1.capacity = d) ∧
      (q.tail < q.capacity → q1.capacity = q.capacity) ∧
      (∀ i s, q.get_size = .ok s → i < s →
        ∃ x, q.get i = .ok x ∧ q1.get i = .ok x) ∧
      (∀ i : Nat, (i : Int) < q.tail →
        ∃ x, q.low_level_get i = .ok x ∧ q1.low_level_get i = .ok x) := by
  have hq := hr.inv
  obtain ⟨q1, hp, hq1, hh, ht, hc, _, _⟩ :=
    push_spec q v hq (hfit.imp id (fun h => ⟨hd, h⟩))
  have hl := live_push q q1 v hq hp
  have hhist := history_push q q1 v hq hp
  have hlen := length_live q hq
  have hlenh := length_history q hq
  obtain ⟨h0, h1, h2, h3⟩ := hq
  refine ⟨q1, hp, ?_, ?_, ?_, ?_, ?_⟩
  · intro hfull hpos
    rw [hc, if_pos hfull, if_neg (by omega)]
  · intro hfull hzero
    rw [hc, if_pos hfull, if_pos hzero]
  · intro hroom
    rw [hc, if_neg (by omega)]
  · intro i s hs hi
    rw [get_size_eq q hr.inv] at hs
    injection hs with hs
    subst hs
    apply get_agree q q1 hr.inv hq1 i hi
    rw [hl, List.getElem?_append_left (by omega)]
  · intro i hi
    apply low_level_get_agree q q1 hr.inv hq1 i hi
    rw [hhist, List.getElem?_append_left (by omega)]

theorem growth_doubles_witness :
    ∃ q1, (⟨[7, 8], 1, 2, 2⟩ : queue Nat 2).push 9 = .ok q1 ∧
      2 * (⟨[7, 8], 1, 2, 2⟩ : queue Nat 2).capacity ≤ q1.capacity ∧
      (∃ x, (⟨[7, 8], 1, 2, 2⟩ : queue Nat 2).get 0 = .ok x ∧ q1.get 0 = .ok x) ∧
      (∃ x, (⟨[7, 8], 1, 2, 2⟩ : queue Nat 2).low_level_get 0 = .ok x ∧
        q1.low_level_get 0 = .ok x) :=
  (growth_doubles (by decide) (⟨[7, 8], 1, 2, 2⟩ : queue Nat 2)
    (Reachable.pop ⟨[7, 8], 0, 2, 2⟩ _ 7
      (Reachable.push ⟨[7, 0], 0, 1, 2⟩ _ 8
        (Reachable.push (queue.construct 0 (fun _ => 0)) _ 7
          (Reachable.construct 0 (fun _ => 0) (by decide)) (by decide))
        (by decide))
      (by decide))
    (Or.inr (by decide)) 9).imp
    (fun _ h => ⟨h.1, h.2.1 (by decide) (by decide),
      h.2.2.2.2.1 0 1 (by decide) (by decide), h.2.2.2.2.2 0 (by decide)⟩)

/-- C5 (representation invariant).  In every state reached from the
constructor (initial capacity `≥ 0`) by returning calls of `push`, `pop`, `set`
and `reset`: `0 ≤ head ≤ tail ≤ capacity`, `get_size()` returns `tail - head`,
and `is_empty()` returns true exactly when `head == tail`, that is exactly
when `get_size()` returns `0`.  A `pop` returns only when `get_size() > 0` and
a `set` only when `idx < get_size()`, so these are the calls of the claim; the
default capacity may be any value, in particular any positive one. -/
theorem representation_invariant {T : Type} [Inhabited T] {d : Int}
    (q : queue T d) (hr : Reachable q) :
    0 ≤ q.head ∧ q.head ≤ q.tail ∧ q.tail ≤ q.capacity ∧
      (∃ s, q.get_size = .ok s ∧ (s : Int) = q.tail - q.head) ∧
      (∃ b, q.is_empty = .ok b ∧ (b = true ↔ q.head = q.tail) ∧
        (b = true ↔ q.get_size = .ok 0)) := by
  have hq := hr.inv
  obtain ⟨h0, h1, h2, h3⟩ := hq
  refine ⟨h0, h1, h2, ⟨(q.tail - q.head).toNat, get_size_eq q hr.inv, by omega⟩,
    ⟨decide (q.head = q.tail), ?_, by simp, ?_⟩⟩
  · unfold queue.is_empty
    rw [if_pos h1]
  · rw [get_size_eq q hr.inv]
    simp only [decide_eq_true_eq]
    constructor
    · intro e
      congr 1
      omega
    · intro e
      injection e with e
      omega

theorem representation_invariant_witness :
    0 ≤ (⟨[7, 0], 1, 1, 2⟩ : queue Nat 2).head ∧
      (⟨[7, 0], 1, 1, 2⟩ : queue Nat 2).head ≤ (⟨[7, 0], 1, 1, 2⟩ : queue Nat 2).tail ∧
      (⟨[7, 0], 1, 1, 2⟩ : queue Nat 2).tail ≤ (⟨[7, 0], 1, 1, 2⟩ : queue Nat 2).capacity ∧
      (∃ s, (⟨[7, 0], 1, 1, 2⟩ : queue Nat 2).get_size = .ok s ∧
        (s : Int) = (⟨[7, 0], 1, 1, 2⟩ : queue Nat 2).tail -
          (⟨[7, 0], 1, 1, 2⟩ : queue Nat 2).head) ∧
      (∃ b, (⟨[7, 0], 1, 1, 2⟩ : queue Nat 2).is_empty = .ok b ∧
        (b = true ↔ (⟨[7, 0], 1, 1, 2⟩ : queue Nat 2).head =
          (⟨[7, 0], 1, 1, 2⟩ : queue Nat 2).tail) ∧
        (b = true ↔ (⟨[7, 0], 1, 1, 2⟩ : queue Nat 2).get_size = .ok 0)) :=
  representation_invariant ⟨[7, 0], 1, 1, 2⟩
    (Reachable.pop ⟨[7, 0], 0, 1, 2⟩ _ 7
      (Reachable.push (queue.construct 0 (fun _ => 0)) _ 7
        (Reachable.construct 0 (fun _ => 0) (by decide)) (by decide))
      (by decide))

/-! ## Indexed access -/

theorem get_of_array {T : Type} {d : Int} (q : queue T d) (h : RepInv q)
    (j : Nat) (hj : j < (q.tail - q.head).toNat) (y : T)
    (hy : q.array[((j : Int) + q.head).toNat]? = some y) : q.get j = .ok y := by
  obtain ⟨x, hx, _, hax⟩ := get_eq q h j hj
  rw [hy] at hax
  injection hax with hax
  rw [hx, hax]

/-- C6 (get and set are relative to head).  In every reachable state and for
every `idx < get_size()`: `get(idx)` returns the buffer slot `head + idx`;
`get(0)` returns the value the next `pop` returns; and `set(idx, v)` returns,
after which `get(idx)` is `v`, `get(j)` is what it was for every other
`j < get_size()`, and `get_size()`, `head`, `tail` and `capacity` are what
they were. -/
theorem get_set_relative {T : Type} [Inhabited T] {d : Int} (q : queue T d)
    (hr : Reachable q) (idx s : Nat) (hs : q.get_size = .ok s) (hi : idx < s)
    (v : T) :
    (∃ x, q.get idx = .ok x ∧ array_read q.array (q.head + (idx : Int)) = .ok x) ∧
      (∃ x q1, q.get 0 = .ok x ∧ q.pop = .ok (x, q1)) ∧
      ∃ q1, q.set idx v = .ok q1 ∧ q1.get idx = .ok v ∧
        (∀ j, j ≠ idx → j < s → ∃ y, q.get j = .ok y ∧ q1.get j = .ok y) ∧
        q1.get_size = .ok s ∧ q1.head = q.head ∧ q1.tail = q.tail ∧
        q1.capacity = q.capacity := by
  have hq := hr.inv
  rw [get_size_eq q hq] at hs
  injection hs with hs
  subst hs
  obtain ⟨h0, h1, h2, h3⟩ := hq
  have hq := hr.inv
  refine ⟨?_, ?_, ?_⟩
  · obtain ⟨x, hx, _, hax⟩ := get_eq q hq idx hi
    refine ⟨x, hx, ?_⟩
    rw [read_eq_ok]
    refine ⟨by omega, ?_⟩
    rw [← hax]
    congr 1
    omega
  · have hlt : q.head < q.tail := by omega
    obtain ⟨x, hx, hp⟩ := pop_ok q hq hlt
    refine ⟨x, _, ?_, hp⟩
    apply get_of_array q hq 0 (by omega)
    rw [← hx]
    congr 1
    omega
  · have hset := set_ok q idx v hq hi
    have hq1 : RepInv (⟨q.array.set ((idx : Int) + q.head).toNat v, q.head,
        q.tail, q.capacity⟩ : queue T d) := by
      unfold RepInv
      simp only [List.length_set]
      omega
    refine ⟨_, hset, ?_, ?_, ?_, rfl, rfl, rfl⟩
    · apply get_of_array _ hq1 idx hi
      have hin : ((idx : Int) + q.head).toNat < q.array.length := by omega
      simp [hin]
    · intro j hj hjs
      obtain ⟨y, hy, _, hay⟩ := get_eq q hq j hjs
      refine ⟨y, hy, ?_⟩
      apply get_of_array _ hq1 j hjs
      simp only
      rw [List.getElem?_set_ne (by omega)]
      exact hay
    · exact get_size_eq _ hq1

theorem get_set_relative_witness :
    ∃ q1, (⟨[7, 8], 0, 2, 2⟩ : queue Nat 2).set 1 5 = .ok q1 ∧ q1.get 1 = .ok 5 :=
  (get_set_relative (⟨[7, 8], 0, 2, 2⟩ : queue Nat 2)
    (Reachable.push ⟨[7, 0], 0, 1, 2⟩ _ 8
      (Reachable.push (queue.construct 0 (fun _ => 0)) _ 7
        (Reachable.construct 0 (fun _ => 0) (by decide)) (by decide))
      (by decide))
    1 2 (by decide) (by decide) 5).2.2.imp (fun _ h => ⟨h.1, h.2.1⟩)

/-! ## Membership -/

theorem contains_loop_spec {T : Type} [DecidableEq T] (a : List T) (v : T)
    (n : Nat) :
    ∀ i : Int, 0 ≤ i → i.toNat + n ≤ a.length →
      ∃ b, queue.contains_loop a v i n = .ok b ∧
        (b = true ↔ ∃ k, k < n ∧ a[i.toNat + k]? = some v) := by
  induction n with
  | zero =>
    intro i _ _
    exact ⟨false, rfl, by simp⟩
  | succ n ih =>
    intro i h0 hlen
    have hin : i.toNat < a.length := by omega
    have hread := read_inside a i h0 hin
    by_cases hv : a.get ⟨i.toNat, hin⟩ = v
    · refine ⟨true, ?_, ?_⟩
      · simp only [queue.contains_loop, hread, hv, if_true]
      · simp only [true_iff]
        refine ⟨0, by omega, ?_⟩
        rw [Nat.add_zero, List.getElem?_eq_getElem hin, ← hv]
        rfl
    · have e : (i + 1).toNat = i.toNat + 1 := by omega
      obtain ⟨b, hb, hiff⟩ := ih (i + 1) (by omega) (by omega)
      refine ⟨b, ?_, ?_⟩
      · simp only [queue.contains_loop, hread, hv, if_false, hb]
      · rw [hiff]
        constructor
        · rintro ⟨k, hk, hak⟩
          refine ⟨k + 1, by omega, ?_⟩
          rw [← hak, e]
          congr 1
          omega
        · rintro ⟨k, hk, hak⟩
          cases k with
          | zero =>
            exfalso
            apply hv
            rw [Nat.add_zero, List.getElem?_eq_getElem hin] at hak
            injection hak
          | succ k =>
            refine ⟨k, by omega, ?_⟩
            rw [← hak, e]
            congr 1
            omega

/-- C7 (contains scans the live window).  In every reachable state
`contains(v)` returns, and it returns true exactly when `get(idx)` is `v` for
some `idx < get_size()`; so a value with no live occurrence, such as one
pushed and already popped, is not contained.  The call is a pure function of
the state: there is no state after it other than the state before. -/
theorem contains_scans_live {T : Type} [Inhabited T] [DecidableEq T] {d : Int}
    (q : queue T d) (hr : Reachable q) (v : T) :
    ∃ b s, q.contains v = .ok b ∧ q.get_size = .ok s ∧
      (b = true ↔ ∃ idx, idx < s ∧ q.get idx = .ok v) ∧
      ((∀ idx, idx < s → q.get idx ≠ .ok v) → b = false) := by
  have hq := hr.inv
  obtain ⟨h0, h1, h2, h3⟩ := hq
  have hq := hr.inv
  obtain ⟨b, hb, hiff⟩ := contains_loop_spec q.array v (q.tail - q.head).toNat
    q.head h0 (by omega)
  have key : b = true ↔
      ∃ idx, idx < (q.tail - q.head).toNat ∧ q.get idx = .ok v := by
    rw [hiff]
    constructor
    · rintro ⟨k, hk, hak⟩
      refine ⟨k, hk, get_of_array q hq k hk v ?_⟩
      rw [← hak]
      congr 1
      omega
    · rintro ⟨k, hk, hgk⟩
      obtain ⟨x, hx, _, hax⟩ := get_eq q hq k hk
      rw [hx] at hgk
      injection hgk with hgk
      refine ⟨k, hk, ?_⟩
      rw [← hgk, ← hax]
      congr 1
      omega
  refine ⟨b, (q.tail - q.head).toNat, hb, get_size_eq q hq, key, ?_⟩
  intro hno
  cases hbv : b with
  | false => rfl
  | true =>
    obtain ⟨idx, hidx, hg⟩ := key.mp hbv
    exact absurd hg (hno idx hidx)

theorem contains_scans_live_witness :
    ∃ b s, (⟨[7, 0], 1, 1, 2⟩ : queue Nat 2).contains 7 = .ok b ∧
      (⟨[7, 0], 1, 1, 2⟩ : queue Nat 2).get_size = .ok s ∧
      (b = true ↔ ∃ idx, idx < s ∧ (⟨[7, 0], 1, 1, 2⟩ : queue Nat 2).get idx = .ok 7) ∧
      ((∀ idx, idx < s → (⟨[7, 0], 1, 1, 2⟩ : queue Nat 2).get idx ≠ .ok 7) →
        b = false) :=
  contains_scans_live ⟨[7, 0], 1, 1, 2⟩
    (Reachable.pop ⟨[7, 0], 0, 1, 2⟩ _ 7
      (Reachable.push (queue.construct 0 (fun _ => 0)) _ 7
        (Reachable.construct 0 (fun _ => 0) (by decide)) (by decide))
      (by decide)) 7

/-- C8 (pop preserves history).  In every reachable state with
`get_size() > 0`, `pop` returns the slot at `head` and changes `head` only,
which grows by one: `tail`, `capacity` and the buffer are what they were, so
`get_num_elems_inserted()` is unchanged and `low_level_get(i)` returns what it
returned before for every `i < tail`, the popped index included. -/
theorem pop_preserves_history {T : Type} [Inhabited T] {d : Int}
    (q : queue T d) (hr : Reachable q) (s : Nat) (hs : q.get_size = .ok s)
    (hpos : 0 < s) :
    ∃ x q1, q.pop = .ok (x, q1) ∧ array_read q.array q.head = .ok x ∧
      q1.head = q.head + 1 ∧ q1.tail = q.tail ∧ q1.capacity = q.capacity ∧
      q1.array = q.array ∧
      q1.get_num_elems_inserted = q.get_num_elems_inserted ∧
      (∀ i : Nat, (i : Int) < q.tail →
        ∃ y, q.low_level_get i = .ok y ∧ q1.low_level_get i = .ok y) ∧
      ∃ y, q.low_level_get q.head.toNat = .ok y ∧
        q1.low_level_get q.head.toNat = .ok y ∧ y = x := by
  have hq := hr.inv
  rw [get_size_eq q hq] at hs
  injection hs with hs
  subst hs
  obtain ⟨h0, h1, h2, h3⟩ := hq
  have hq := hr.inv
  have hlt : q.head < q.tail := by omega
  obtain ⟨x, hx, hp⟩ := pop_ok q hq hlt
  refine ⟨x, _, hp, ?_, rfl, rfl, rfl, rfl, rfl, ?_, ?_⟩
  · rw [read_eq_ok]
    exact ⟨h0, hx⟩
  · intro i hi
    obtain ⟨y, hy, _⟩ := low_level_get_eq q hq i (by omega)
    exact ⟨y, hy, hy⟩
  · have hl : q.low_level_get q.head.toNat = .ok x := by
      unfold queue.low_level_get
      exact read_nat _ _ _ hx
    exact ⟨x, hl, hl, rfl⟩

theorem pop_preserves_history_witness :
    ∃ x q1, (⟨[7, 0], 0, 1, 2⟩ : queue Nat 2).pop = .ok (x, q1) ∧
      q1.low_level_get 0 = .ok x :=
  (pop_preserves_history (⟨[7, 0], 0, 1, 2⟩ : queue Nat 2)
    (Reachable.push (queue.construct 0 (fun _ => 0)) _ 7
      (Reachable.construct 0 (fun _ => 0) (by decide)) (by decide))
    1 (by decide) (by decide)).imp
    (fun _ h => h.imp (fun _ h =>
      ⟨h.1, by
        obtain ⟨y, _, hy, e⟩ := h.2.2.2.2.2.2.2.2
        rw [← e]
        exact hy⟩))

/-- C9 (reset is a logical clear).  In every reachable state, after `reset()`
`head` and `tail` are `0`, `is_empty()` returns true and `get_size()` returns
`0`, while `capacity` and the buffer are what they were: `low_level_get(i)`
returns what it returned before for every `i < capacity`. -/
theorem reset_is_logical {T : Type} [Inhabited T] {d : Int} (q : queue T d)
    (hr : Reachable q) :
    q.reset.head = 0 ∧ q.reset.tail = 0 ∧ q.reset.is_empty = .ok true ∧
      q.reset.get_size = .ok 0 ∧ q.reset.capacity = q.capacity ∧
      q.reset.array = q.array ∧
      ∀ i : Nat, (i : Int) < q.capacity →
        ∃ y, q.low_level_get i = .ok y ∧ q.reset.low_level_get i = .ok y := by
  refine ⟨rfl, rfl, rfl, rfl, rfl, rfl, ?_⟩
  intro i hi
  obtain ⟨y, hy, _⟩ := low_level_get_eq q hr.inv i hi
  exact ⟨y, hy, hy⟩

theorem reset_is_logical_witness :
    (⟨[7, 0], 0, 1, 2⟩ : queue Nat 2).reset.low_level_get 0 = .ok 7 ∧
      (⟨[7, 0], 0, 1, 2⟩ : queue Nat 2).reset.get_size = .ok 0 :=
  have h := reset_is_logical (⟨[7, 0], 0, 1, 2⟩ : queue Nat 2)
    (Reachable.push (queue.construct 0 (fun _ => 0)) _ 7
      (Reachable.construct 0 (fun _ => 0) (by decide)) (by decide))
  ⟨by
    obtain ⟨y, hy, hy1⟩ := h.2.2.2.2.2.2 0 (by decide)
    rw [hy1, ← hy]
    decide, h.2.2.2.1⟩

/-- C10 (capacity reuse after reset).  In every reachable state with
`tail == t` and `capacity == c`, `reset()` followed by `k ≤ t` pushes returns,
leaves the capacity at `c` (no expansion), and yields `get_size() == k` with
`get(i)` the `i`-th value pushed after the reset for every `i < k`. -/
theorem reset_reuses_capacity {T : Type} [Inhabited T] {d : Int}
    (q : queue T d) (hr : Reachable q) (vs : List T)
    (hk : (vs.length : Int) ≤ q.tail) :
    ∃ q1, push_all q.reset vs = .ok q1 ∧ q1.capacity = q.capacity ∧
      q1.get_size = .ok vs.length ∧
      ∀ (i : Nat) (hi : i < vs.length), q1.get i = .ok vs[i] := by
  have hq := hr.inv
  have hqr := RepInv_reset q hq
  obtain ⟨h0, h1, h2, h3⟩ := hq
  have hroom : q.reset.tail + (vs.length : Int) ≤ q.reset.capacity := by
    show (0 : Int) + (vs.length : Int) ≤ q.capacity
    omega
  obtain ⟨q1, hrun, hq1, hh, ht, hhist, hc⟩ :=
    push_all_spec vs q.reset hqr (Or.inr hroom)
  have hh0 : q1.head = 0 := hh
  have ht0 : q1.tail = (vs.length : Int) := by
    rw [ht]
    show (0 : Int) + (vs.length : Int) = vs.length
    omega
  have hlive : live q1 = vs := by
    unfold live
    rw [hhist, hh0]
    unfold history
    show List.drop 0 (List.take (0 : Int).toNat q.array ++ vs) = vs
    simp
  refine ⟨q1, hrun, hc hroom, ?_, ?_⟩
  · rw [get_size_eq q1 hq1]
    congr 1
    omega
  · intro i hi
    apply get_of_live q1 hq1
    rw [hlive, List.getElem?_eq_getElem hi]

theorem reset_reuses_capacity_witness :
    ∃ q1, push_all (⟨[7, 8], 0, 2, 2⟩ : queue Nat 2).reset [5] = .ok q1 ∧
      q1.capacity = (⟨[7, 8], 0, 2, 2⟩ : queue Nat 2).capacity ∧
      q1.get_size = .ok [5].length ∧
      ∀ (i : Nat) (hi : i < [5].length), q1.get i = .ok [5][i] :=
  reset_reuses_capacity (⟨[7, 8], 0, 2, 2⟩ : queue Nat 2)
    (Reachable.push ⟨[7, 0], 0, 1, 2⟩ _ 8
      (Reachable.push (queue.construct 0 (fun _ => 0)) _ 7
        (Reachable.construct 0 (fun _ => 0) (by decide)) (by decide))
      (by decide))
    [5] (by decide)

/-! ## Contract violations -/

/-- C11 (violations of the live-window contracts halt).  With a failed
`assert` modelled as an error result: in every reachable state, of size `s`,
`pop()` fails exactly when `s == 0`, and `get(idx)` and `set(idx, v)` fail
exactly when `idx ≥ s`.  The failure is the failed assertion, and an error
result carries neither an element nor a state, so nothing is returned and no
slot is written. -/
theorem violations_halt {T : Type} [Inhabited T] {d : Int} (q : queue T d)
    (hr : Reachable q) :
    ∃ s, q.get_size = .ok s ∧
      ((∃ e, q.pop = .error e) ↔ s = 0) ∧
      (s = 0 → q.pop = .error Fault.assertion_failed) ∧
      (∀ idx, (∃ e, q.get idx = .error e) ↔ s ≤ idx) ∧
      (∀ idx, s ≤ idx → q.get idx = .error Fault.assertion_failed) ∧
      (∀ idx v, (∃ e, q.set idx v = .error e) ↔ s ≤ idx) ∧
      (∀ idx v, s ≤ idx → q.set idx v = .error Fault.assertion_failed) := by
  have hq := hr.inv
  obtain ⟨h0, h1, h2, h3⟩ := hq
  have hq := hr.inv
  have hpop : (q.tail - q.head).toNat = 0 →
      q.pop = .error Fault.assertion_failed := by
    intro hs
    unfold queue.pop
    rw [if_neg (by omega)]
  have hget : ∀ idx, (q.tail - q.head).toNat ≤ idx →
      q.get idx = .error Fault.assertion_failed := by
    intro idx hs
    unfold queue.get
    rw [get_size_eq q hq]
    simp only
    rw [if_neg (by omega)]
  have hset : ∀ idx v, (q.tail - q.head).toNat ≤ idx →
      q.set idx v = .error Fault.assertion_failed := by
    intro idx v hs
    unfold queue.set
    rw [get_size_eq q hq]
    simp only
    rw [if_neg (by omega)]
  refine ⟨(q.tail - q.head).toNat, get_size_eq q hq, ?_, hpop, ?_, hget, ?_, hset⟩
  · constructor
    · rintro ⟨e, he⟩
      by_contra hne
      obtain ⟨x, _, hp⟩ := pop_ok q hq (by omega)
      rw [hp] at he
      cases he
    · intro hs
      exact ⟨_, hpop hs⟩
  · intro idx
    constructor
    · rintro ⟨e, he⟩
      by_contra hne
      obtain ⟨x, hx, _⟩ := get_eq q hq idx (by omega)
      rw [hx] at he
      cases he
    · intro hs
      exact ⟨_, hget idx hs⟩
  · intro idx v
    constructor
    · rintro ⟨e, he⟩
      by_contra hne
      rw [set_ok q idx v hq (by omega)] at he
      cases he
    · intro hs
      exact ⟨_, hset idx v hs⟩

theorem violations_halt_witness :
    (⟨[7, 0], 1, 1, 2⟩ : queue Nat 2).pop = .error Fault.assertion_failed :=
  (violations_halt (⟨[7, 0], 1, 1, 2⟩ : queue Nat 2)
    (Reachable.pop ⟨[7, 0], 0, 1, 2⟩ _ 7
      (Reachable.push (queue.construct 0 (fun _ => 0)) _ 7
        (Reachable.construct 0 (fun _ => 0) (by decide)) (by decide))
      (by decide))).elim
    (fun s h => h.2.2.1 (by
      have e := h.1
      have e2 : (⟨[7, 0], 1, 1, 2⟩ : queue Nat 2).get_size = .ok 0 := by decide
      rw [e2] at e
      injection e with e
      exact e.symm))

/-! ## The insertion counter -/

theorem count_from_le {T : Type} (calls : List (Call T)) :
    ∀ n, count_from n calls ≤ n + push_count calls := by
  induction calls with
  | nil => intro n; simp [count_from, push_count]
  | cons c rest ih =>
    intro n
    cases c with
    | push v =>
      have := ih (n + 1)
      simp only [count_from, push_count]
      omega
    | pop => simpa [count_from, push_count] using ih n
    | set idx v => simpa [count_from, push_count] using ih n
    | reset =>
      have := ih 0
      simp only [count_from, push_count]
      omega

/-- A sequence of calls that respects the contracts and performs at most
`2^30` pushes completes. -/
theorem exec_total {T : Type} [Inhabited T] {d : Int} (hd : 0 < d)
    (calls : List (Call T)) :
    ∀ q : queue T d, RepInv q →
      q.tail + (push_count calls : Int) ≤ 2 ^ 30 → respects q calls = true →
      ∃ q1, exec q calls = .ok q1 := by
  induction calls with
  | nil =>
    intro q _ _ _
    exact ⟨q, rfl⟩
  | cons c rest ih =>
    intro q hq hb hg
    cases c with
    | push v =>
      simp only [push_count, Nat.cast_add, Nat.cast_one] at hb
      obtain ⟨q1, hp⟩ := push_ok q v hq (fits_of_tail_lt q hd (by omega))
      obtain ⟨hq1, _, ht, _, _, _⟩ := push_frame q q1 v hq hp
      simp only [respects, hp] at hg
      obtain ⟨q2, hr⟩ := ih q1 hq1 (by omega) hg
      exact ⟨q2, by simp only [exec, hp, hr]⟩
    | pop =>
      have hs := get_size_eq q hq
      simp only [respects, hs, Bool.and_eq_true, decide_eq_true_eq] at hg
      obtain ⟨hpos, hg⟩ := hg
      have hlt : q.head < q.tail := by omega
      obtain ⟨x, hx, hp⟩ := pop_ok q hq hlt
      simp only [hp] at hg
      simp only [push_count] at hb
      obtain ⟨q2, hr⟩ := ih _ (RepInv_pop q hq hlt) hb hg
      exact ⟨q2, by simp only [exec, hp, hr]⟩
    | set idx v =>
      have hs := get_size_eq q hq
      simp only [respects, hs, Bool.and_eq_true, decide_eq_true_eq] at hg
      obtain ⟨hidx, hg⟩ := hg
      have hp := set_ok q idx v hq hidx
      have hq1 : RepInv (⟨q.array.set ((idx : Int) + q.head).toNat v, q.head,
          q.tail, q.capacity⟩ : queue T d) := by
        obtain ⟨h0, h1, h2, h3⟩ := hq
        unfold RepInv
        simp only [List.length_set]
        omega
      simp only [hp] at hg
      simp only [push_count] at hb
      obtain ⟨q2, hr⟩ := ih _ hq1 hb hg
      exact ⟨q2, by simp only [exec, hp, hr]⟩
    | reset =>
      simp only [respects] at hg
      simp only [push_count] at hb
      have h0 := hq.1
      have h1 := hq.2.1
      obtain ⟨q2, hr⟩ := ih q.reset (RepInv_reset q hq)
        (by show (0 : Int) + _ ≤ _; omega) hg
      exact ⟨q2, by simp only [exec, hr]⟩

/-- After a completed sequence of calls `tail` is the number of pushes since
the last `reset`, counted from the `tail` at the start. -/
theorem exec_counter {T : Type} [Inhabited T] {d : Int}
    (calls : List (Call T)) :
    ∀ q q1 : queue T d, RepInv q → exec q calls = .ok q1 →
      RepInv q1 ∧ q1.tail.toNat = count_from q.tail.toNat calls := by
  induction calls with
  | nil =>
    intro q q1 hq he
    simp only [exec] at he
    injection he with he
    subst he
    exact ⟨hq, rfl⟩
  | cons c rest ih =>
    intro q q1 hq he
    cases c with
    | push v =>
      simp only [exec] at he
      cases hp : q.push v with
      | error e => rw [hp] at he; cases he
      | ok q2 =>
        rw [hp] at he
        obtain ⟨hq2, _, ht, _, _, _⟩ := push_frame q q2 v hq hp
        obtain ⟨hq1, hc⟩ := ih q2 q1 hq2 he
        refine ⟨hq1, ?_⟩
        have e : q2.tail.toNat = q.tail.toNat + 1 := by
          have := hq.1
          have := hq.2.1
          omega
        rw [hc, e]
        rfl
    | pop =>
      simp only [exec] at he
      cases hp : q.pop with
      | error e => rw [hp] at he; cases he
      | ok r =>
        obtain ⟨x, q2⟩ := r
        rw [hp] at he
        obtain ⟨hlt, _, e⟩ := pop_frame q q2 x hp
        subst e
        obtain ⟨hq1, hc⟩ := ih _ q1 (RepInv_pop q hq hlt) he
        exact ⟨hq1, by rw [hc]; rfl⟩
    | set idx v =>
      simp only [exec] at he
      cases hp : q.set idx v with
      | error e => rw [hp] at he; cases he
      | ok q2 =>
        rw [hp] at he
        obtain ⟨_, _, _, _, e⟩ := set_frame q q2 idx v hp
        have hq2 : RepInv q2 := by
          obtain ⟨h0, h1, h2, h3⟩ := hq
          subst e
          unfold RepInv
          simp only [List.length_set]
          omega
        obtain ⟨hq1, hc⟩ := ih q2 q1 hq2 he
        refine ⟨hq1, ?_⟩
        rw [hc, e]
        rfl
    | reset =>
      simp only [exec] at he
      obtain ⟨hq1, hc⟩ := ih q.reset q1 (RepInv_reset q hq) he
      exact ⟨hq1, by rw [hc]; rfl⟩

/-- C12, refuted as stated: after `push(7)` and `reset()` on a new queue
`get_num_elems_inserted()` is `0` although one push was performed, and the
`reset` has decreased it from `1` to `0`. -/
theorem insertion_counter_reset_counterexample :
    ∃ q0 q1 : queue Nat 2,
      respects (queue.construct 0 (fun _ => 0) : queue Nat 2)
        [Call.push 7, Call.reset] = true ∧
      exec (queue.construct 0 (fun _ => 0)) [Call.push 7] = .ok q0 ∧
      exec (queue.construct 0 (fun _ => 0)) [Call.push 7, Call.reset] = .ok q1 ∧
      q1.get_num_elems_inserted ≠ push_count [Call.push (7 : Nat), Call.reset] ∧
      q1.get_num_elems_inserted < q0.get_num_elems_inserted :=
  ⟨⟨[7, 0], 0, 1, 2⟩, ⟨[7, 0], 0, 0, 2⟩, by decide, by decide, by decide,
    by decide, by decide⟩

/-- C12, amended.  `get_num_elems_inserted()` returns `tail`, which counts the
pushes since the last `reset` (all pushes when there was none).  After every
sequence of `push`, `pop`, `set` and `reset` calls on a new queue that runs to
completion it is the number of pushes since the last reset, hence at most the
number of pushes performed; from there a `push` that returns increases it by
one, `pop` and `set` leave it unchanged, and `reset` sets it to zero.  A
sequence that respects the contracts does run to completion when the default
capacity is positive and it performs at most `2^30` pushes. -/
theorem insertion_counter_since_reset {T : Type} [Inhabited T] {d : Int}
    (c : Int) (fresh : Nat → T) (hc : 0 ≤ c) (calls : List (Call T)) :
    (∀ q1, exec (queue.construct c fresh : queue T d) calls = .ok q1 →
      q1.get_num_elems_inserted = pushes_since_reset calls ∧
      q1.get_num_elems_inserted ≤ push_count calls ∧
      (∀ v q2, q1.push v = .ok q2 →
        q2.get_num_elems_inserted = q1.get_num_elems_inserted + 1) ∧
      (∀ x q2, q1.pop = .ok (x, q2) →
        q2.get_num_elems_inserted = q1.get_num_elems_inserted) ∧
      (∀ idx v q2, q1.set idx v = .ok q2 →
        q2.get_num_elems_inserted = q1.get_num_elems_inserted) ∧
      q1.reset.get_num_elems_inserted = 0) ∧
    (0 < d → push_count calls ≤ 2 ^ 30 →
      respects (queue.construct c fresh : queue T d) calls = true →
      ∃ q1, exec (queue.construct c fresh : queue T d) calls = .ok q1) := by
  constructor
  · intro q1 hr
    obtain ⟨hq1, hcnt⟩ :=
      exec_counter calls (queue.construct c fresh) q1 (RepInv_construct c fresh hc) hr
    rw [tail_construct] at hcnt
    have hcnt : q1.get_num_elems_inserted = pushes_since_reset calls := hcnt
    refine ⟨hcnt, ?_, ?_, ?_, ?_, rfl⟩
    · rw [hcnt]
      have := count_from_le calls 0
      unfold pushes_since_reset
      omega
    · intro v q2 hp
      obtain ⟨_, _, ht, _, _, _⟩ := push_frame q1 q2 v hq1 hp
      unfold queue.get_num_elems_inserted
      have := hq1.1
      have := hq1.2.1
      omega
    · intro x q2 hp
      obtain ⟨_, _, e⟩ := pop_frame q1 q2 x hp
      rw [e]
      rfl
    · intro idx v q2 hs
      obtain ⟨_, _, _, _, e⟩ := set_frame q1 q2 idx v hs
      rw [e]
      rfl
  · intro hd hb hg
    apply exec_total hd calls (queue.construct c fresh)
      (RepInv_construct c fresh hc) _ hg
    rw [tail_construct]
    have : ((push_count calls : Nat) : Int) ≤ ((2 ^ 30 : Nat) : Int) :=
      Int.ofNat_le.mpr hb
    norm_num at this
    omega

theorem insertion_counter_since_reset_witness :
    ∃ q1, exec (queue.construct 0 (fun _ => 0) : queue Nat 2)
        [Call.push 7, Call.reset, Call.push 8, Call.pop] = .ok q1 ∧
      q1.get_num_elems_inserted =
        pushes_since_reset [Call.push (7 : Nat), Call.reset, Call.push 8, Call.pop] :=
  ((insertion_counter_since_reset 0 (fun _ => 0) (by decide)
      [Call.push 7, Call.reset, Call.push 8, Call.pop]).2
    (by decide) (by decide) (by decide)).imp
    (fun q1 hr =>
      ⟨hr, ((insertion_counter_since_reset 0 (fun _ => 0) (by decide)
        [Call.push 7, Call.reset, Call.push 8, Call.pop]).1 q1 hr).1⟩)

/-! ## The unchecked accessor -/

/-- C13, refuted as stated: after one `push(7)` on a new queue with default
capacity 2, `get_num_elems_inserted()` is `1` and `low_level_get(1)` returns
the zero-filled slot `1` instead of halting. -/
theorem low_level_get_unchecked_counterexample :
    Reachable (⟨[7, 0], 0, 1, 2⟩ : queue Nat 2) ∧
      (⟨[7, 0], 0, 1, 2⟩ : queue Nat 2).get_num_elems_inserted ≤ 1 ∧
      (⟨[7, 0], 0, 1, 2⟩ : queue Nat 2).low_level_get 1 = .ok 0 :=
  ⟨Reachable.push (queue.construct 0 (fun _ => 0)) _ 7
      (Reachable.construct 0 (fun _ => 0) (by decide)) (by decide),
    by decide, by decide⟩

/-- C13, amended.  `low_level_get(idx)` checks nothing: in every reachable
state it never halts on an assertion, and for every `idx < capacity`, those
with `idx ≥ get_num_elems_inserted()` included, it returns the content of
buffer slot `idx`; for `idx ≥ capacity` the read is outside the buffer. -/
theorem low_level_get_unchecked {T : Type} [Inhabited T] {d : Int}
    (q : queue T d) (hr : Reachable q) (idx : Nat) :
    q.low_level_get idx ≠ .error Fault.assertion_failed ∧
      ((idx : Int) < q.capacity →
        ∃ x, q.low_level_get idx = .ok x ∧ q.array[idx]? = some x) ∧
      (q.capacity ≤ (idx : Int) →
        q.low_level_get idx = .error Fault.out_of_bounds) := by
  have hq := hr.inv
  obtain ⟨h0, h1, h2, h3⟩ := hq
  have hout : q.capacity ≤ (idx : Int) →
      q.low_level_get idx = .error Fault.out_of_bounds := by
    intro hge
    have hnone : q.array[idx]? = none := List.getElem?_eq_none (by omega)
    unfold queue.low_level_get array_read
    rw [if_pos (by omega)]
    simp only [Int.toNat_ofNat, hnone]
  refine ⟨?_, fun hlt => low_level_get_eq q hr.inv idx hlt, hout⟩
  by_cases hlt : (idx : Int) < q.capacity
  · obtain ⟨x, hx, _⟩ := low_level_get_eq q hr.inv idx hlt
    rw [hx]
    intro e
    cases e
  · rw [hout (by omega)]
    intro e
    cases e

theorem low_level_get_unchecked_witness :
    ∃ x, (⟨[7, 0], 0, 1, 2⟩ : queue Nat 2).low_level_get 1 = .ok x ∧
      (⟨[7, 0], 0, 1, 2⟩ : queue Nat 2).array[1]? = some x :=
  (low_level_get_unchecked (⟨[7, 0], 0, 1, 2⟩ : queue Nat 2)
    (Reachable.push (queue.construct 0 (fun _ => 0)) _ 7
      (Reachable.construct 0 (fun _ => 0) (by decide)) (by decide)) 1).2.1
    (by decide)

/-! ## The shape of the capacity -/

theorem capacity_shape_push {T : Type} [Inhabited T] {d : Int} (c0 : Int)
    (q q1 : queue T d) (v : T) (h : RepInv q) (hp : q.push v = .ok q1)
    (hs : capacity_shape c0 d q.capacity) :
    q.capacity ≤ q1.capacity ∧ capacity_shape c0 d q1.capacity := by
  obtain ⟨hq1, hh, ht, hc, _, _⟩ := push_frame q q1 v h hp
  obtain ⟨h0, h1, h2, h3⟩ := h
  obtain ⟨_, _, k2, _⟩ := hq1
  by_cases hfull : q.tail = q.capacity
  · rw [if_pos hfull] at hc
    by_cases hz : q.capacity = 0
    · rw [if_pos hz] at hc
      refine ⟨by omega, ?_, ?_⟩
      · intro hpos
        obtain ⟨j, hj⟩ := hs.1 hpos
        have : 0 < c0 * 2 ^ j := by positivity
        omega
      · intro _
        exact Or.inr ⟨0, by rw [hc]; simp⟩
    · rw [if_neg hz] at hc
      refine ⟨by omega, ?_, ?_⟩
      · intro hpos
        obtain ⟨j, hj⟩ := hs.1 hpos
        exact ⟨j + 1, by rw [hc, hj, pow_succ]; ring⟩
      · intro hc0
        rcases hs.2 hc0 with hzero | ⟨j, hj⟩
        · exact absurd hzero hz
        · exact Or.inr ⟨j + 1, by rw [hc, hj, pow_succ]; ring⟩
  · rw [if_neg hfull] at hc
    rw [hc]
    exact ⟨le_refl _, hs⟩

theorem exec_capacity {T : Type} [Inhabited T] {d : Int} (c0 : Int)
    (calls : List (Call T)) :
    ∀ q q1 : queue T d, RepInv q → exec q calls = .ok q1 →
      capacity_shape c0 d q.capacity →
      RepInv q1 ∧ q.capacity ≤ q1.capacity ∧ capacity_shape c0 d q1.capacity := by
  induction calls with
  | nil =>
    intro q q1 hq he hs
    simp only [exec] at he
    injection he with he
    subst he
    exact ⟨hq, le_refl _, hs⟩
  | cons c rest ih =>
    intro q q1 hq he hs
    cases c with
    | push v =>
      simp only [exec] at he
      cases hp : q.push v with
      | error e => rw [hp] at he; cases he
      | ok q2 =>
        rw [hp] at he
        obtain ⟨hle, hs2⟩ := capacity_shape_push c0 q q2 v hq hp hs
        obtain ⟨hq1, hle1, hs1⟩ := ih q2 q1 (push_frame q q2 v hq hp).1 he hs2
        exact ⟨hq1, le_trans hle hle1, hs1⟩
    | pop =>
      simp only [exec] at he
      cases hp : q.pop with
      | error e => rw [hp] at he; cases he
      | ok r =>
        obtain ⟨x, q2⟩ := r
        rw [hp] at he
        obtain ⟨hlt, _, e⟩ := pop_frame q q2 x hp
        have hq2 : RepInv q2 := by
          obtain ⟨h0, h1, h2, h3⟩ := hq
          subst e
          unfold RepInv
          simp only
          omega
        have hcap : q2.capacity = q.capacity := by rw [e]
        obtain ⟨hq1, hle1, hs1⟩ := ih q2 q1 hq2 he (by rw [hcap]; exact hs)
        exact ⟨hq1, by omega, hs1⟩
    | set idx v =>
      simp only [exec] at he
      cases hp : q.set idx v with
      | error e => rw [hp] at he; cases he
      | ok q2 =>
        rw [hp] at he
        obtain ⟨_, _, _, _, e⟩ := set_frame q q2 idx v hp
        have hq2 : RepInv q2 := by
          obtain ⟨h0, h1, h2, h3⟩ := hq
          subst e
          unfold RepInv
          simp only [List.length_set]
          omega
        have hcap : q2.capacity = q.capacity := by rw [e]
        obtain ⟨hq1, hle1, hs1⟩ := ih q2 q1 hq2 he (by rw [hcap]; exact hs)
        exact ⟨hq1, by omega, hs1⟩
    | reset =>
      simp only [exec] at he
      exact ih q.reset q1 (RepInv_reset q hq) he hs

/-- C20 (shape of the capacity).  In every state reached from a queue
constructed with initial capacity `c0 ≥ 0` by returning calls of `push`,
`pop`, `set` and `reset`, the capacity is `c0 * 2^j` for some `j` when
`c0 > 0`, and is `0` or `d * 2^j` when `c0 == 0` (integers without overflow);
it is at least `c0`; no call decreases it (`push` never, the three others
leave it as it is); and the test `tail >= capacity` that guards `expand`
holds only with `tail == capacity`, so the capacity changes only then.  This
holds for any default capacity `d`, in particular for `d ≥ 1`. -/
theorem capacity_shape_never_shrinks {T : Type} [Inhabited T] {d : Int}
    (c0 : Int) (fresh : Nat → T) (hc : 0 ≤ c0) (calls : List (Call T))
    (q : queue T d)
    (he : exec (queue.construct c0 fresh : queue T d) calls = .ok q) :
    (0 < c0 → ∃ j : Nat, q.capacity = c0 * 2 ^ j) ∧
      (c0 = 0 → q.capacity = 0 ∨ ∃ j : Nat, q.capacity = d * 2 ^ j) ∧
      c0 ≤ q.capacity ∧
      (∀ v q1, q.push v = .ok q1 → q.capacity ≤ q1.capacity) ∧
      (∀ x q1, q.pop = .ok (x, q1) → q1.capacity = q.capacity) ∧
      (∀ idx v q1, q.set idx v = .ok q1 → q1.capacity = q.capacity) ∧
      q.reset.capacity = q.capacity ∧
      (q.tail ≥ q.capacity → q.tail = q.capacity) ∧
      (∀ v q1, q.push v = .ok q1 → q1.capacity ≠ q.capacity →
        q.tail = q.capacity) := by
  have hs0 : capacity_shape c0 d (queue.construct c0 fresh : queue T d).capacity := by
    rw [capacity_construct]
    exact ⟨fun _ => ⟨0, by simp⟩, fun h => Or.inl h⟩
  obtain ⟨hq, hle, hs⟩ := exec_capacity c0 calls _ q
    (RepInv_construct c0 fresh hc) he hs0
  rw [capacity_construct] at hle
  refine ⟨hs.1, hs.2, hle, ?_, ?_, ?_, rfl, ?_, ?_⟩
  · intro v q1 hp
    exact (capacity_shape_push c0 q q1 v hq hp hs).1
  · intro x q1 hp
    obtain ⟨_, _, e⟩ := pop_frame q q1 x hp
    rw [e]
  · intro idx v q1 hp
    obtain ⟨_, _, _, _, e⟩ := set_frame q q1 idx v hp
    rw [e]
  · intro hge
    have := hq.2.2.1
    omega
  · intro v q1 hp hne
    obtain ⟨_, _, _, hcap, _, _⟩ := push_frame q q1 v hq hp
    by_contra hfull
    rw [if_neg hfull] at hcap
    exact hne hcap

theorem capacity_shape_never_shrinks_witness :
    ∃ j : Nat, (⟨[7, 8, 9, 0], 1, 3, 4⟩ : queue Nat 64).capacity = 1 * 2 ^ j :=
  (capacity_shape_never_shrinks 1 (fun _ => 0) (by decide)
    [Call.push 7, Call.push 8, Call.pop, Call.push 9]
    (⟨[7, 8, 9, 0], 1, 3, 4⟩ : queue Nat 64) (by decide)).1 (by decide)

/-! ## The theory-context adapter -/

/-- C14 (reset_scratch_state touches the scratch context only).  For every
adapter state, after `reset_scratch_state()` the formula set, the
associated-formulas cache, the atom-to-formula-id map, `num_calls` and
`ics_elapsed` are what they were (the whole adapter is), and the external
solver has received exactly the one call `icsat_reset_scratch_context()`. -/
theorem reset_scratch_state_frame {Manager Time Solver : Type}
    (icsat_reset_scratch_context : Solver → Solver)
    (a : ICSInterface Manager Time) (s : Solver) :
    (a.reset_scratch_state icsat_reset_scratch_context s).1.formulas = a.formulas ∧
      (a.reset_scratch_state icsat_reset_scratch_context s).1.associated_formulas =
        a.associated_formulas ∧
      (a.reset_scratch_state icsat_reset_scratch_context s).1.atom_to_formula_id =
        a.atom_to_formula_id ∧
      (a.reset_scratch_state icsat_reset_scratch_context s).1.get_num_calls =
        a.get_num_calls ∧
      (a.reset_scratch_state icsat_reset_scratch_context s).1.get_time = a.get_time ∧
      (a.reset_scratch_state icsat_reset_scratch_context s).1 = a ∧
      (a.reset_scratch_state icsat_reset_scratch_context s).2 =
        icsat_reset_scratch_context s :=
  ⟨rfl, rfl, rfl, rfl, rfl, rfl, rfl⟩

/-- C15 (get_associated_formulas).  `get_associated_formulas(f)` returns the
cached sequence of `f` when the cache has an entry for `f` and the empty
sequence when it has none; it is a total function, so it never fails. -/
theorem get_associated_formulas_result {Manager Time : Type}
    (a : ICSInterface Manager Time) (f : Nat) :
    (∀ v, a.associated_formulas f = some v → (a.get_associated_formulas f).1 = v) ∧
      (a.associated_formulas f = none → (a.get_associated_formulas f).1 = []) := by
  constructor
  · intro v hv
    simp only [ICSInterface.get_associated_formulas, hash_map.subscript, hv]
  · intro hv
    simp only [ICSInterface.get_associated_formulas, hash_map.subscript, hv]
    rfl

theorem get_associated_formulas_result_witness :
    ((⟨(), (), 0, false, ∅, hash_map.empty.store 3 [4, 5], hash_map.empty⟩ :
        ICSInterface Unit Unit).get_associated_formulas 3).1 = [4, 5] ∧
      ((⟨(), (), 0, false, ∅, hash_map.empty.store 3 [4, 5], hash_map.empty⟩ :
        ICSInterface Unit Unit).get_associated_formulas 8).1 = [] :=
  ⟨(get_associated_formulas_result
      (⟨(), (), 0, false, ∅, hash_map.empty.store 3 [4, 5], hash_map.empty⟩ :
        ICSInterface Unit Unit) 3).1 [4, 5] rfl,
    (get_associated_formulas_result
      (⟨(), (), 0, false, ∅, hash_map.empty.store 3 [4, 5], hash_map.empty⟩ :
        ICSInterface Unit Unit) 8).2 rfl⟩

/-- C16 (assert_formula_in_scratch_state is an alias).  For every adapter
state, solver state and formula id `f`, and whatever `assert_formula` does,
`assert_formula_in_scratch_state(f)` returns the boolean of
`assert_formula(f, true)` and leaves the adapter and the solver in the same
state. -/
theorem assert_formula_in_scratch_state_alias {Manager Time Solver : Type}
    (assert_formula : ICSInterface Manager Time → Solver → LPFormulaId → Bool →
      Bool × ICSInterface Manager Time × Solver)
    (a : ICSInterface Manager Time) (s : Solver) (f : LPFormulaId) :
    a.assert_formula_in_scratch_state assert_formula s f =
      assert_formula a s f true :=
  rfl

/-- C17 (push/pop round trip).  For every adapter state, `push()` followed at
once by `pop()` returns and leaves the scope depth, the FormulaIdSet, the
associated-formulas cache and the atom-to-formula-id map as they were before
the push. -/
theorem push_pop_round_trip {Manager Time Solver : Type}
    (ctx_push ctx_pop : Solver → Solver)
    (c : AdapterContext Manager Time Solver) :
    ∃ c1, ICSInterface.pop ctx_pop (ICSInterface.push ctx_push c) = .ok c1 ∧
      c1.d = c.d ∧ c1.adapter.formulas = c.adapter.formulas ∧
      c1.adapter.associated_formulas = c.adapter.associated_formulas ∧
      c1.adapter.atom_to_formula_id = c.adapter.atom_to_formula_id ∧
      c1.adapter = c.adapter ∧ c1.solver = ctx_pop (ctx_push c.solver) := by
  refine ⟨⟨c.d, c.adapter, ctx_pop (ctx_push c.solver)⟩, ?_, rfl, rfl, rfl, rfl,
    rfl, rfl⟩
  unfold ICSInterface.pop ICSInterface.push
  simp

theorem foldl_store_apply {K V : Type} [DecidableEq K] (v : V) (ks : List K) :
    ∀ (m : hash_map K V) (k : K),
      (ks.foldl (fun m a => m.store a v) m) k =
        if k ∈ ks then some v else m k := by
  induction ks with
  | nil => intro m k; simp
  | cons x rest ih =>
    intro m k
    rw [List.foldl_cons, ih]
    by_cases hk : k ∈ rest
    · simp [hk]
    · by_cases hx : k = x
      · simp [hk, hx, hash_map.store]
      · simp [hk, hx, hash_map.store]

/-- C18 (last writer wins).  For formula ids `f1`, `f2` whose theory-atom
lists both contain the atom `a`, after `set_formula(f1)` and then
`set_formula(f2)`, `get_formula_id_of_atom_id(a)` returns `f2`. -/
theorem last_writer_wins {Manager Time : Type}
    (get_theory_atoms : Nat → List Int) (st : ICSInterface Manager Time)
    (f1 f2 : Nat) (a : Int) (_h1 : a ∈ get_theory_atoms f1)
    (h2 : a ∈ get_theory_atoms f2) :
    (((st.set_formula get_theory_atoms f1).set_formula get_theory_atoms
      f2).get_formula_id_of_atom_id a).1 = (f2 : Int) := by
  have hm : ((st.set_formula get_theory_atoms f1).set_formula get_theory_atoms
      f2).atom_to_formula_id a = some (f2 : Int) := by
    simp only [ICSInterface.set_formula]
    rw [foldl_store_apply, if_pos h2]
  simp only [ICSInterface.get_formula_id_of_atom_id, hash_map.subscript, hm]

theorem last_writer_wins_witness :
    ((((⟨(), (), 0, false, ∅, hash_map.empty, hash_map.empty⟩ :
        ICSInterface Unit Unit).set_formula
          (fun f => if f = 1 then [5, 6] else [7, 5]) 1).set_formula
          (fun f => if f = 1 then [5, 6] else [7, 5]) 2).get_formula_id_of_atom_id
        5).1 = ((2 : Nat) : Int) :=
  last_writer_wins (fun f => if f = 1 then [5, 6] else [7, 5])
    ⟨(), (), 0, false, ∅, hash_map.empty, hash_map.empty⟩ 1 2 5
    (by decide) (by decide)

/-- C19 (lookups of absent keys insert).  For an atom `a` without entry,
`get_formula_id_of_atom_id(a)` returns `0` and afterwards the map has the
entry `a → 0`, every other entry and every other member being as before;
likewise `get_associated_formulas(f)` for an `f` without entry returns the
empty sequence and inserts `f → []`.  For a key with an entry both return
the stored value and leave the adapter as it was. -/
theorem absent_lookups_insert {Manager Time : Type}
    (st : ICSInterface Manager Time) (a : Int) (f : Nat) :
    (st.atom_to_formula_id a = none →
      (st.get_formula_id_of_atom_id a).1 = 0 ∧
      (st.get_formula_id_of_atom_id a).2.atom_to_formula_id a = some 0 ∧
      (∀ k, k ≠ a → (st.get_formula_id_of_atom_id a).2.atom_to_formula_id k =
        st.atom_to_formula_id k) ∧
      (st.get_formula_id_of_atom_id a).2.associated_formulas =
        st.associated_formulas ∧
      (st.get_formula_id_of_atom_id a).2.formulas = st.formulas) ∧
    (st.associated_formulas f = none →
      (st.get_associated_formulas f).1 = [] ∧
      (st.get_associated_formulas f).2.associated_formulas f = some [] ∧
      (∀ k, k ≠ f → (st.get_associated_formulas f).2.associated_formulas k =
        st.associated_formulas k) ∧
      (st.get_associated_formulas f).2.atom_to_formula_id =
        st.atom_to_formula_id ∧
      (st.get_associated_formulas f).2.formulas = st.formulas) ∧
    (∀ v, st.atom_to_formula_id a = some v →
      st.get_formula_id_of_atom_id a = (v, st)) ∧
    (∀ v, st.associated_formulas f = some v →
      st.get_associated_formulas f = (v, st)) := by
  refine ⟨?_, ?_, ?_, ?_⟩
  · intro h
    simp only [ICSInterface.get_formula_id_of_atom_id, hash_map.subscript, h]
    refine ⟨rfl, by simp [hash_map.store], ?_, trivial, trivial⟩
    intro k hk
    simp [hash_map.store, hk]
  · intro h
    simp only [ICSInterface.get_associated_formulas, hash_map.subscript, h]
    refine ⟨rfl, by simp only [hash_map.store, if_true]; rfl, ?_, trivial, trivial⟩
    intro k hk
    simp [hash_map.store, hk]
  · intro v h
    simp only [ICSInterface.get_formula_id_of_atom_id, hash_map.subscript, h]
  · intro v h
    simp only [ICSInterface.get_associated_formulas, hash_map.subscript, h]

theorem absent_lookups_insert_witness :
    ((⟨(), (), 0, false, ∅, hash_map.empty, hash_map.empty.store 5 2⟩ :
        ICSInterface Unit Unit).get_formula_id_of_atom_id 9).1 = 0 ∧
      ((⟨(), (), 0, false, ∅, hash_map.empty, hash_map.empty.store 5 2⟩ :
        ICSInterface Unit Unit).get_formula_id_of_atom_id 9).2.atom_to_formula_id 9 =
        some 0 :=
  have h := (absent_lookups_insert
    (⟨(), (), 0, false, ∅, hash_map.empty, hash_map.empty.store 5 2⟩ :
      ICSInterface Unit Unit) 9 0).1 (by decide)
  ⟨h.1, h.2.1⟩
